import Mathlib

set_option maxHeartbeats 1600000

/-!
Verification of the doc-vqa-reviewer core (src/app.py): the JSONL record
parser, the conversation-to-QA-pair reconstruction, the edit merge, and the
export serializers, together with their stated invariants.

Modelling conventions: Python strings are Lean Strings (lists of Unicode
scalar values; lone surrogates are outside the model), bytes are Nats below
256, JSON numbers are modelled as integers (float literals are outside the
model), and a Python function that can raise inside the try of
load_jsonl_data is modelled as an Option-valued function, none standing for
the caught-and-reported failure path (the DatasetParseError of the spec).
-/

namespace DocVQA

/-- One conversation turn of a record: a speaker tag and its text
(app.py reads elements of a record's conversations list as conv["from"]
and conv["value"]). -/
structure Turn where
  «from» : String
  value : String
  deriving DecidableEq, Repr

/-- A question/answer pair as rebuilt by display_conversations (app.py
lines 33-45): the question comes from a human turn; the answer is absent
when no gpt turn followed before the pair was flushed. -/
structure QAPair where
  question : String
  answer : Option String
  deriving DecidableEq, Repr

/-- The pairing scan of display_conversations (app.py lines 34-45), with
the current_pair dict modelled by an Option String: the empty dict is
none, a dict holding a pending question q is some q.  The dicts this loop
builds are exactly the empty one and singletons with key "question", so
the truthiness test on current_pair in the human branch and the final
flush, and the membership test for "question" in the gpt branch, all
coincide with the Option being some. -/
def reconstructAux : Option String → List Turn → List QAPair
  | acc, [] =>
    match acc with
    | some q => [⟨q, none⟩]
    | none => []
  | acc, t :: ts =>
    if t.«from» = "human" then
      match acc with
      | some q => ⟨q, none⟩ :: reconstructAux (some t.value) ts
      | none => reconstructAux (some t.value) ts
    else if t.«from» = "gpt" then
      match acc with
      | some q => ⟨q, some t.value⟩ :: reconstructAux none ts
      | none => reconstructAux none ts
    else
      reconstructAux acc ts

/-- app.py lines 33-45: the Q/A pairs rebuilt from a conversations list. -/
def reconstructPairs (ts : List Turn) : List QAPair := reconstructAux none ts

/-- The accumulator state of the Pair Reconstructor as the specification
words it (spec section 9): either empty or holding a pending question. -/
inductive AccState where
  | empty
  | hasQuestion (q : String)
  deriving DecidableEq, Repr

/-- One step of the specification's scan (spec section 4.2), carrying the
output flushed so far together with the accumulator state. -/
def specStep (s : List QAPair × AccState) (t : Turn) : List QAPair × AccState :=
  if t.«from» = "human" then
    match s.2 with
    | .hasQuestion q => (s.1 ++ [⟨q, none⟩], .hasQuestion t.value)
    | .empty => (s.1, .hasQuestion t.value)
  else if t.«from» = "gpt" then
    match s.2 with
    | .hasQuestion q => (s.1 ++ [⟨q, some t.value⟩], .empty)
    | .empty => s
  else
    s

/-- The Pair Reconstructor exactly as the specification describes it
(spec sections 4.2 and 9): a fold of specStep over the turns followed by a
final flush of a still-pending question. -/
def specReconstructPairs (ts : List Turn) : List QAPair :=
  match ts.foldl specStep ([], .empty) with
  | (out, .hasQuestion q) => out ++ [⟨q, none⟩]
  | (out, .empty) => out

/-- The edit merge of display_conversations (app.py lines 47-65): each
edited existing pair contributes a human turn then a gpt turn, always
both; a newly added pair contributes the same two turns only when at
least one of its two text fields is nonempty (Python truthiness of
q_value or a_value), and is dropped otherwise. -/
def mergeEdits (edited : List (String × String)) (newPairs : List (String × String)) :
    List Turn :=
  (edited.flatMap fun p => [⟨"human", p.1⟩, ⟨"gpt", p.2⟩]) ++
    ((newPairs.filter fun p => !(p.1 = "" && p.2 = "")).flatMap
      fun p => [⟨"human", p.1⟩, ⟨"gpt", p.2⟩])

/-- The text the edit widgets hold before the reviewer touches them
(app.py lines 50-51): pair.get with default empty string, so a pair with
no answer shows an empty answer box. -/
def pairsToEdits (ps : List QAPair) : List (String × String) :=
  ps.map fun p => (p.question, p.answer.getD "")

/-- A turn list made of complete human/gpt blocks: even positions are
human turns, odd positions gpt turns.  This is exactly the shape every
output of the edit merge has, hence the valid turn sequences of the
round-trip property. -/
def alternatesHG : List Turn → Bool
  | [] => true
  | [_] => false
  | t1 :: t2 :: rest =>
    t1.«from» = "human" && t2.«from» = "gpt" && alternatesHG rest

/-! ## The JSON value model

The records of the dataset are whatever json.loads yields for each line,
so they are modelled as a JSON value tree.  Numbers are integers (float
literals are outside the model); objects are insertion-ordered key/value
lists, as Python dicts are. -/

/-- A JSON value as Python's json module holds it in memory. -/
inductive Json where
  | null
  | bool (b : Bool)
  | num (n : Int)
  | str (s : String)
  | arr (elems : List Json)
  | obj (members : List (String × Json))
  deriving Repr

/-- Key lookup among an object's members (Python d[k] read, first match;
Python dicts never hold a key twice). -/
def lookupKey : List (String × Json) → String → Option Json
  | [], _ => none
  | kv :: kvs, k => if kv.1 = k then some kv.2 else lookupKey kvs k

/-- Python d[k] = v on an insertion-ordered dict: an existing key keeps
its position and gets the new value; a fresh key is appended. -/
def updAssoc : List (String × Json) → String → Json → List (String × Json)
  | [], k, v => [(k, v)]
  | kv :: kvs, k, v =>
    if kv.1 = k then (kv.1, v) :: kvs else kv :: updAssoc kvs k v

/-- Python dict(pairs): insert the pairs left to right, so a duplicated
key keeps its first position and its last value. -/
def dictify (ps : List (String × Json)) : List (String × Json) :=
  ps.foldl (fun acc kv => updAssoc acc kv.1 kv.2) []

/-- Whether a key occurs among an object's members. -/
def hasKey (kvs : List (String × Json)) (k : String) : Bool :=
  kvs.any fun kv => kv.1 = k

/-- No key listed twice: what being a Python dict guarantees structurally. -/
def nodupKeys : List (String × Json) → Bool
  | [] => true
  | kv :: kvs => !hasKey kvs kv.1 && nodupKeys kvs

mutual

/-- A JSON tree all of whose objects are genuine dicts (no duplicated
keys anywhere).  Every value built by Python, in particular every parse
result, satisfies this. -/
def Json.wf : Json → Bool
  | .null => true
  | .bool _ => true
  | .num _ => true
  | .str _ => true
  | .arr xs => Json.wfElems xs
  | .obj kvs => nodupKeys kvs && Json.wfMembers kvs

def Json.wfElems : List Json → Bool
  | [] => true
  | x :: xs => Json.wf x && Json.wfElems xs

def Json.wfMembers : List (String × Json) → Bool
  | [] => true
  | kv :: kvs => Json.wf kv.2 && Json.wfMembers kvs

end

/-! ## Serialization (json.dumps) -/

/-- The decimal digit characters. -/
def digitChar : Nat → Char
  | 0 => '0' | 1 => '1' | 2 => '2' | 3 => '3' | 4 => '4'
  | 5 => '5' | 6 => '6' | 7 => '7' | 8 => '8' | _ => '9'

/-- Lowercase hexadecimal digit characters, as Python's backslash-u
escapes print them. -/
def hexDigitChar : Nat → Char
  | 0 => '0' | 1 => '1' | 2 => '2' | 3 => '3' | 4 => '4'
  | 5 => '5' | 6 => '6' | 7 => '7' | 8 => '8' | 9 => '9'
  | 10 => 'a' | 11 => 'b' | 12 => 'c' | 13 => 'd' | 14 => 'e' | _ => 'f'

/-- Decimal digits, most significant first, recursing on a fuel bound so
the recursion is structural; any fuel above the value works. -/
def natDigitsF : Nat → Nat → List Char
  | 0, _ => []
  | f + 1, n =>
    if n < 10 then [digitChar n]
    else natDigitsF f (n / 10) ++ [digitChar (n % 10)]

/-- Decimal digits of a natural number, most significant first (what
Python's repr of a nonnegative int prints). -/
def natDigits (n : Nat) : List Char := natDigitsF (n + 1) n

/-- Python's repr of an int: an optional minus sign, then the digits. -/
def intRepr (n : Int) : List Char :=
  if n < 0 then '-' :: natDigits n.natAbs else natDigits n.natAbs

/-- One character as json.dumps with ensure_ascii=False emits it: quote,
backslash and the control characters below 0x20 are escaped (the five
short escapes, backslash-u00xx in lowercase hex for the rest); every
other character, non-ASCII included, passes through verbatim. -/
def escapeChar (c : Char) : List Char :=
  if c = '"' then ['\\', '"']
  else if c = '\\' then ['\\', '\\']
  else if c.toNat < 32 then
    if c = '\x08' then ['\\', 'b']
    else if c = '\x0c' then ['\\', 'f']
    else if c = '\n' then ['\\', 'n']
    else if c = '\r' then ['\\', 'r']
    else if c = '\t' then ['\\', 't']
    else '\\' :: 'u' :: '0' :: '0' ::
      [hexDigitChar (c.toNat / 16), hexDigitChar (c.toNat % 16)]
  else [c]

/-- A string body, escaped character by character. -/
def escapeList (s : List Char) : List Char := s.flatMap escapeChar

/-- A JSON string literal: quoted escaped body. -/
def dumpStr (s : String) : List Char := '"' :: (escapeList s.data ++ ['"'])

mutual

/-- json.dumps(v, ensure_ascii=False) with the default separators: items
joined by comma-space, keys and values by colon-space, all on one line.
This is the form the full-dataset export writes (app.py line 128). -/
def dumps : Json → List Char
  | .null => 'n' :: ['u', 'l', 'l']
  | .bool true => 't' :: ['r', 'u', 'e']
  | .bool false => 'f' :: ['a', 'l', 's', 'e']
  | .num n => intRepr n
  | .str s => dumpStr s
  | .arr [] => ['[', ']']
  | .arr (x :: xs) => '[' :: (dumps x ++ dumpsTail xs ++ [']'])
  | .obj [] => ['\x7b', '\x7d']
  | .obj (kv :: kvs) =>
    '\x7b' :: (dumpStr kv.1 ++ ':' :: ' ' :: dumps kv.2 ++ dumpsMTail kvs ++ ['\x7d'])

/-- The remaining array elements, each preceded by comma-space. -/
def dumpsTail : List Json → List Char
  | [] => []
  | x :: xs => ',' :: ' ' :: (dumps x ++ dumpsTail xs)

/-- The remaining object members, each preceded by comma-space. -/
def dumpsMTail : List (String × Json) → List Char
  | [] => []
  | kv :: kvs => ',' :: ' ' :: (dumpStr kv.1 ++ ':' :: ' ' :: dumps kv.2 ++ dumpsMTail kvs)

end

/-- A newline followed by the two-space indentation of a nesting level. -/
def nlIndent (lvl : Nat) : List Char := '\n' :: List.replicate (2 * lvl) ' '

mutual

/-- json.dumps(v, indent=2, ensure_ascii=False): the pretty form the
single-item export writes (app.py line 119).  With indent given, Python
separates items by a bare comma plus newline-and-indentation and keys
from values by colon-space; empty containers stay on one line. -/
def dumpsPretty : Nat → Json → List Char
  | _, .null => 'n' :: ['u', 'l', 'l']
  | _, .bool true => 't' :: ['r', 'u', 'e']
  | _, .bool false => 'f' :: ['a', 'l', 's', 'e']
  | _, .num n => intRepr n
  | _, .str s => dumpStr s
  | _, .arr [] => ['[', ']']
  | lvl, .arr (x :: xs) =>
    '[' :: (nlIndent (lvl + 1) ++ dumpsPretty (lvl + 1) x ++
      dumpsPrettyTail (lvl + 1) xs ++ nlIndent lvl ++ [']'])
  | _, .obj [] => ['\x7b', '\x7d']
  | lvl, .obj (kv :: kvs) =>
    '\x7b' :: (nlIndent (lvl + 1) ++ dumpStr kv.1 ++ ':' :: ' ' ::
      dumpsPretty (lvl + 1) kv.2 ++ dumpsPrettyMTail (lvl + 1) kvs ++
      nlIndent lvl ++ ['\x7d'])

/-- The remaining pretty array elements, comma then newline-indent. -/
def dumpsPrettyTail : Nat → List Json → List Char
  | _, [] => []
  | lvl, x :: xs =>
    ',' :: (nlIndent lvl ++ dumpsPretty lvl x ++ dumpsPrettyTail lvl xs)

/-- The remaining pretty object members, comma then newline-indent. -/
def dumpsPrettyMTail : Nat → List (String × Json) → List Char
  | _, [] => []
  | lvl, kv :: kvs =>
    ',' :: (nlIndent lvl ++ dumpStr kv.1 ++ ':' :: ' ' ::
      dumpsPretty lvl kv.2 ++ dumpsPrettyMTail lvl kvs)

end

/-- serializeOne of the spec: app.py line 119, the pretty-printed single
record. -/
def serializeOne (record : Json) : List Char := dumpsPretty 0 record

/-- serializeAll of the spec: app.py line 128, the compact dumps of each
record joined by single newlines (Python str.join: no trailing newline). -/
def serializeAll : List Json → List Char
  | [] => []
  | [d] => dumps d
  | d :: ds => dumps d ++ '\n' :: serializeAll ds

/-- The JSON form display_conversations writes back into a record's
conversations field: a list of two-key objects, keys in the literal
order from, value (app.py lines 52-53 and 63-64). -/
def turnsToJson (ts : List Turn) : Json :=
  .arr (ts.map fun t => .obj [("from", .str t.«from»), ("value", .str t.value)])

/-! ## Parsing (json.loads)

The scanner of Python's json module, restricted to the value model above:
integer numbers only (a float literal makes the parse fail in the model,
where Python would build a float), and backslash-u escapes only for
Unicode scalar values (Python would build lone surrogate characters,
which a scalar-value string cannot hold). -/

/-- The whitespace the json scanner skips: space, tab, newline, carriage
return (the WHITESPACE regex of the decoder). -/
def jsonWs (c : Char) : Bool := c = ' ' || c = '\t' || c = '\n' || c = '\r'

/-- Drop leading json whitespace. -/
def skipWs : List Char → List Char
  | c :: cs => if jsonWs c then skipWs cs else c :: cs
  | [] => []

/-- The value of a hex digit, upper or lower case (int(s, 16) on one
character). -/
def hexVal (c : Char) : Option Nat :=
  if '0' ≤ c ∧ c ≤ '9' then some (c.toNat - 48)
  else if 'a' ≤ c ∧ c ≤ 'f' then some (c.toNat - 87)
  else if 'A' ≤ c ∧ c ≤ 'F' then some (c.toNat - 55)
  else none

/-- A character from a code point, defined only on Unicode scalar
values. -/
def charFromCode (n : Nat) : Option Char :=
  if n < 55296 ∨ (57344 ≤ n ∧ n < 1114112) then some (Char.ofNat n) else none

/-- The one-character escapes the scanner accepts (BACKSLASH table). -/
def unescapeChar (e : Char) : Option Char :=
  if e = '"' then some '"'
  else if e = '\\' then some '\\'
  else if e = '/' then some '/'
  else if e = 'b' then some '\x08'
  else if e = 'f' then some '\x0c'
  else if e = 'n' then some '\n'
  else if e = 'r' then some '\r'
  else if e = 't' then some '\t'
  else none

/-- The body of a string literal after its opening quote (py_scanstring
with strict=True): a closing quote ends it, a backslash starts an escape
(backslash-u reads four hex digits), an unescaped control character below
0x20 is an error, anything else passes through. -/
def parseStringBody : List Char → Option (List Char × List Char)
  | [] => none
  | '"' :: rest => some ([], rest)
  | '\\' :: rest =>
    match rest with
    | 'u' :: h1 :: h2 :: h3 :: h4 :: rest2 =>
      match hexVal h1, hexVal h2, hexVal h3, hexVal h4 with
      | some a, some b, some c, some d =>
        match charFromCode (((a * 16 + b) * 16 + c) * 16 + d) with
        | some ch =>
          match parseStringBody rest2 with
          | some r => some (ch :: r.1, r.2)
          | none => none
        | none => none
      | _, _, _, _ => none
    | e :: rest2 =>
      match unescapeChar e with
      | some ch =>
        match parseStringBody rest2 with
        | some r => some (ch :: r.1, r.2)
        | none => none
      | none => none
    | [] => none
  | c :: rest =>
    if c.toNat < 32 then none
    else
      match parseStringBody rest with
      | some r => some (c :: r.1, r.2)
      | none => none

/-- The numeric value of a digit run (the parse_int of the scanner). -/
def digitsVal (ds : List Char) : Nat :=
  ds.foldl (fun a c => a * 10 + (c.toNat - 48)) 0

/-- The integer part of the NUMBER_RE regex: a single zero, or a nonzero
digit followed by any digits. -/
def parseIntDigits : List Char → Option (Nat × List Char)
  | [] => none
  | c :: rest =>
    if c = '0' then some (0, rest)
    else if c.isDigit then
      some (digitsVal (c :: rest.takeWhile Char.isDigit), rest.dropWhile Char.isDigit)
    else none

/-- Whether the NUMBER_RE regex would continue past the integer part into
a fraction or exponent, making the literal a float (outside the model). -/
def isFloatTail : List Char → Bool
  | '.' :: c :: _ => c.isDigit
  | 'e' :: '+' :: c :: _ => c.isDigit
  | 'e' :: '-' :: c :: _ => c.isDigit
  | 'e' :: c :: _ => c.isDigit
  | 'E' :: '+' :: c :: _ => c.isDigit
  | 'E' :: '-' :: c :: _ => c.isDigit
  | 'E' :: c :: _ => c.isDigit
  | _ => false

/-- A remainder that cannot extend an integer literal: empty, or headed
by something that is neither a digit nor a fraction or exponent opener.
Every delimiter the serializer ever places after a number qualifies. -/
def numEnd : List Char → Bool
  | [] => true
  | c :: _ => !(c.isDigit || c = '.' || c = 'e' || c = 'E')

/-- An integer literal: NUMBER_RE restricted to its integer production.
A match whose fraction or exponent group would also match is a float and
falls outside the model. -/
def parseNumber : List Char → Option (Int × List Char)
  | [] => none
  | c :: cs1 =>
    if c = '-' then
      match parseIntDigits cs1 with
      | some (n, rest) =>
        if isFloatTail rest then none else some (-(n : Int), rest)
      | none => none
    else
      match parseIntDigits (c :: cs1) with
      | some (n, rest) =>
        if isFloatTail rest then none else some ((n : Int), rest)
      | none => none

mutual

/-- scan_once of the json scanner, at a position with whitespace already
skipped; fuel falls on every inner call and the top level passes more
than the input length, so it never runs out there. -/
def parseValue : Nat → List Char → Option (Json × List Char)
  | 0, _ => none
  | fuel + 1, cs =>
    match cs with
    | '"' :: rest =>
      match parseStringBody rest with
      | some r => some (.str (String.mk r.1), r.2)
      | none => none
    | '\x7b' :: rest =>
      match skipWs rest with
      | '\x7d' :: r2 => some (.obj [], r2)
      | r2 =>
        match parseMember fuel r2 with
        | some (kv, r3) =>
          match parseObjTail fuel r3 with
          | some (kvs, r4) => some (.obj (dictify (kv :: kvs)), r4)
          | none => none
        | none => none
    | '[' :: rest =>
      match skipWs rest with
      | ']' :: r2 => some (.arr [], r2)
      | r2 =>
        match parseValue fuel r2 with
        | some (x, r3) =>
          match parseArrayTail fuel r3 with
          | some (xs, r4) => some (.arr (x :: xs), r4)
          | none => none
        | none => none
    | 'n' :: 'u' :: 'l' :: 'l' :: rest => some (.null, rest)
    | 't' :: 'r' :: 'u' :: 'e' :: rest => some (.bool true, rest)
    | 'f' :: 'a' :: 'l' :: 's' :: 'e' :: rest => some (.bool false, rest)
    | _ =>
      match parseNumber cs with
      | some r => some (.num r.1, r.2)
      | none => none

/-- The JSONArray loop after one element: whitespace, then a closing
bracket ends the array and a comma demands a further element. -/
def parseArrayTail : Nat → List Char → Option (List Json × List Char)
  | 0, _ => none
  | fuel + 1, cs =>
    match skipWs cs with
    | ']' :: r => some ([], r)
    | ',' :: r =>
      match parseValue fuel (skipWs r) with
      | some (x, r2) =>
        match parseArrayTail fuel r2 with
        | some (xs, r3) => some (x :: xs, r3)
        | none => none
      | none => none
    | _ => none

/-- One object member at its opening quote: key string, whitespace,
colon, whitespace, value (the body of the JSONObject loop). -/
def parseMember : Nat → List Char → Option ((String × Json) × List Char)
  | 0, _ => none
  | fuel + 1, cs =>
    match cs with
    | '"' :: rest =>
      match parseStringBody rest with
      | some kr =>
        match skipWs kr.2 with
        | ':' :: r3 =>
          match parseValue fuel (skipWs r3) with
          | some (v, r4) => some ((String.mk kr.1, v), r4)
          | none => none
        | _ => none
      | none => none
    | _ => none

/-- The JSONObject loop after one member: whitespace, then a closing
brace ends the object and a comma demands a further member. -/
def parseObjTail : Nat → List Char → Option (List (String × Json) × List Char)
  | 0, _ => none
  | fuel + 1, cs =>
    match skipWs cs with
    | '\x7d' :: r => some ([], r)
    | ',' :: r =>
      match parseMember fuel (skipWs r) with
      | some (kv, r2) =>
        match parseObjTail fuel r2 with
        | some (kvs, r3) => some (kv :: kvs, r3)
        | none => none
      | none => none
    | _ => none

end

/-- json.loads on text: skip surrounding whitespace, scan one value,
demand nothing but whitespace after it. -/
def loads (cs : List Char) : Option Json :=
  let cs1 := skipWs cs
  match parseValue (cs1.length + 1) cs1 with
  | some (j, rest) => if skipWs rest = [] then some j else none
  | none => none

/-! ## The line loader (load_jsonl_data) -/

/-- The whitespace str.strip removes: the ASCII whitespace and vertical
separators plus the Unicode space and line separator characters. -/
def pyStripWs (c : Char) : Bool :=
  c = ' ' || c = '\t' || c = '\n' || c = '\r' || c = '\x0b' || c = '\x0c' ||
  c = '\x1c' || c = '\x1d' || c = '\x1e' || c = '\x1f' || c = '\x85' ||
  c = '\xa0' || c = ' ' || (8192 ≤ c.toNat && c.toNat ≤ 8202) ||
  c = ' ' || c = ' ' || c = ' ' || c = ' ' || c = '　'

/-- line.strip(): whitespace removed from both ends. -/
def pyStrip (s : List Char) : List Char :=
  ((s.dropWhile pyStripWs).reverse.dropWhile pyStripWs).reverse

/-- The lines of a text as iterating a file handle yields them: split
after every newline, terminators kept, a last unterminated piece kept,
and no line at all from empty input. -/
def fileLines : List Char → List (List Char)
  | [] => []
  | c :: cs =>
    if c = '\n' then ['\n'] :: fileLines cs
    else
      match fileLines cs with
      | [] => [[c]]
      | l :: ls => (c :: l) :: ls

/-- The byte lines of an uploaded file, split after every 0x0a byte as
iterating a binary file handle does. -/
def fileLinesBytes : List Nat → List (List Nat)
  | [] => []
  | b :: bs =>
    if b = 10 then [10] :: fileLinesBytes bs
    else
      match fileLinesBytes bs with
      | [] => [[b]]
      | l :: ls => (b :: l) :: ls

/-- A UTF-8 continuation byte. -/
def utf8Cont (b : Nat) : Bool := 128 ≤ b && b ≤ 191

/-- bytes.decode("utf-8") with the default strict error handling:
shortest-form sequences only, surrogate code points rejected. -/
def utf8Decode : List Nat → Option (List Char)
  | [] => some []
  | b1 :: bs =>
    if b1 ≤ 127 then
      match utf8Decode bs with
      | some r => some (Char.ofNat b1 :: r)
      | none => none
    else if 194 ≤ b1 ∧ b1 ≤ 223 then
      match bs with
      | b2 :: bs2 =>
        if utf8Cont b2 then
          match utf8Decode bs2 with
          | some r => some (Char.ofNat ((b1 - 192) * 64 + (b2 - 128)) :: r)
          | none => none
        else none
      | [] => none
    else if 224 ≤ b1 ∧ b1 ≤ 239 then
      match bs with
      | b2 :: b3 :: bs3 =>
        if (if b1 = 224 then 160 ≤ b2 && b2 ≤ 191
            else if b1 = 237 then 128 ≤ b2 && b2 ≤ 159
            else utf8Cont b2) && utf8Cont b3 then
          match utf8Decode bs3 with
          | some r =>
            some (Char.ofNat ((b1 - 224) * 4096 + (b2 - 128) * 64 + (b3 - 128)) :: r)
          | none => none
        else none
      | _ => none
    else if 240 ≤ b1 ∧ b1 ≤ 244 then
      match bs with
      | b2 :: b3 :: b4 :: bs4 =>
        if (if b1 = 240 then 144 ≤ b2 && b2 ≤ 191
            else if b1 = 244 then 128 ≤ b2 && b2 ≤ 143
            else utf8Cont b2) && utf8Cont b3 && utf8Cont b4 then
          match utf8Decode bs4 with
          | some r =>
            some (Char.ofNat
              ((b1 - 240) * 262144 + (b2 - 128) * 4096 + (b3 - 128) * 64 + (b4 - 128)) :: r)
          | none => none
        else none
      | _ => none
    else none

/-- One iteration of the loop of load_jsonl_data (app.py lines 11-14) on
an already-accumulated prefix: decode the byte line, strip it, skip it if
blank, otherwise parse it and append; none is the exception path that
aborts the whole load. -/
def loadLine (acc : List Json) (line : List Nat) : Option (List Json) :=
  match utf8Decode line with
  | none => none
  | some s =>
    if pyStrip s = [] then some acc
    else
      match loads (pyStrip s) with
      | some j => some (acc ++ [j])
      | none => none

/-- The loop of load_jsonl_data over the remaining lines. -/
def loadLinesFrom (acc : List Json) : List (List Nat) → Option (List Json)
  | [] => some acc
  | l :: ls =>
    match loadLine acc l with
    | some acc2 => loadLinesFrom acc2 ls
    | none => none

/-- load_jsonl_data (app.py lines 7-18) on the uploaded file's bytes:
every line decoded, stripped, and parsed in order; any failure anywhere
makes the whole call yield none (the except branch reports the error and
returns None, handing no dataset back). -/
def load_jsonl_data (input : List Nat) : Option (List Json) :=
  loadLinesFrom [] (fileLinesBytes input)

/-- The text-level loop step of load_jsonl_data, for input already known
to be decoded text (the byte loader is this after a per-line UTF-8
decode). -/
def loadTextLine (acc : List Json) (line : List Char) : Option (List Json) :=
  if pyStrip line = [] then some acc
  else
    match loads (pyStrip line) with
    | some j => some (acc ++ [j])
    | none => none

/-- The text-level loop of load_jsonl_data over the remaining lines. -/
def loadTextLinesFrom (acc : List Json) : List (List Char) → Option (List Json)
  | [] => some acc
  | l :: ls =>
    match loadTextLine acc l with
    | some acc2 => loadTextLinesFrom acc2 ls
    | none => none

/-- load_jsonl_data at the text level: the parse of a line-delimited JSON
text into the record sequence. -/
def loadJsonlText (text : List Char) : Option (List Json) :=
  loadTextLinesFrom [] (fileLines text)

/-- The guard after loading (app.py lines 80-82): with data None or an
empty list, Python's falsiness test makes main return before any review
state is set up; only a nonempty dataset proceeds. -/
def continuesReview : Option (List Json) → Bool
  | none => false
  | some ds => !ds.isEmpty

/-! ## The reconstruction scan -/

/-- The accumulator dict as the specification's two-state machine. -/
def stateOfAcc : Option String → AccState
  | none => .empty
  | some q => .hasQuestion q

/-- Flattening question/answer text pairs into human/gpt turn blocks
(the two appends of app.py lines 52-53 and 63-64). -/
def pairBlocks (ps : List (String × String)) : List Turn :=
  ps.flatMap fun p => [⟨"human", p.1⟩, ⟨"gpt", p.2⟩]

/-- The specification's fold, started from any flushed prefix and any
accumulator state, flushes that prefix in front of what the source scan
yields from the same state. -/
theorem specFold_eq_reconstructAux (ts : List Turn) : ∀ (out : List QAPair) (acc : Option String),
    (match ts.foldl specStep (out, stateOfAcc acc) with
     | (o, .hasQuestion q) => o ++ [⟨q, none⟩]
     | (o, .empty) => o) = out ++ reconstructAux acc ts := by
  induction ts with
  | nil =>
    intro out acc
    cases acc <;> simp [reconstructAux, stateOfAcc]
  | cons t ts ih =>
    intro out acc
    by_cases h1 : t.«from» = "human"
    · cases acc with
      | none =>
        have := ih out (some t.value)
        simpa [reconstructAux, specStep, stateOfAcc, h1] using this
      | some q =>
        have := ih (out ++ [⟨q, none⟩]) (some t.value)
        simpa [reconstructAux, specStep, stateOfAcc, h1] using this
    · by_cases h2 : t.«from» = "gpt"
      · cases acc with
        | none =>
          have := ih out none
          simpa [reconstructAux, specStep, stateOfAcc, h1, h2] using this
        | some q =>
          have := ih (out ++ [⟨q, some t.value⟩]) none
          simpa [reconstructAux, specStep, stateOfAcc, h1, h2] using this
      · cases acc with
        | none =>
          have := ih out none
          simpa [reconstructAux, specStep, stateOfAcc, h1, h2] using this
        | some q =>
          have := ih out (some q)
          simpa [reconstructAux, specStep, stateOfAcc, h1, h2] using this

/-- The pair count of the scan from any accumulator state: one pair per
human turn, plus the pending pair if the accumulator holds one. -/
theorem reconstructAux_length (ts : List Turn) : ∀ acc : Option String,
    (reconstructAux acc ts).length =
      (match acc with | some _ => 1 | none => 0) +
        (ts.filter fun t => t.«from» = "human").length := by
  induction ts with
  | nil => intro acc; cases acc <;> simp [reconstructAux]
  | cons t ts ih =>
    intro acc
    by_cases h1 : t.«from» = "human"
    · cases acc <;> simp [reconstructAux, h1, ih] <;> omega
    · by_cases h2 : t.«from» = "gpt" <;> cases acc <;>
        simp [reconstructAux, h1, h2, ih] <;> omega

/-- Where an answered pair's texts come from, scanning from any
accumulator state: the answer is a gpt turn of the input, and the
question is the pending one or a human turn strictly earlier. -/
theorem reconstructAux_answer_src (ts : List Turn) : ∀ (acc : Option String) (p : QAPair),
    p ∈ reconstructAux acc ts → ∀ a, p.answer = some a →
    ∃ j, ts.get? j = some ⟨"gpt", a⟩ ∧
      ((∃ q0, acc = some q0 ∧ p.question = q0) ∨
        ∃ i, i < j ∧ ts.get? i = some ⟨"human", p.question⟩) := by
  induction ts with
  | nil =>
    intro acc p hp a ha
    cases acc with
    | none => simp [reconstructAux] at hp
    | some q =>
      simp [reconstructAux] at hp
      subst hp
      simp at ha
  | cons t ts ih =>
    intro acc p hp a ha
    by_cases h1 : t.«from» = "human"
    · cases acc with
      | none =>
        simp only [reconstructAux, h1, if_true, reduceIte] at hp
        obtain ⟨j, hj, hsrc⟩ := ih (some t.value) p hp a ha
        refine ⟨j + 1, by simpa using hj, ?_⟩
        rcases hsrc with ⟨q0, hq0, hpq⟩ | ⟨i, hij, hi⟩
        · obtain rfl : t.value = q0 := by simpa using hq0
          exact Or.inr ⟨0, by omega, by cases t; simp_all⟩
        · exact Or.inr ⟨i + 1, by omega, by simpa using hi⟩
      | some q =>
        simp only [reconstructAux, h1, if_true, reduceIte, List.mem_cons] at hp
        rcases hp with hp | hp
        · subst hp; simp at ha
        · obtain ⟨j, hj, hsrc⟩ := ih (some t.value) p hp a ha
          refine ⟨j + 1, by simpa using hj, ?_⟩
          rcases hsrc with ⟨q0, hq0, hpq⟩ | ⟨i, hij, hi⟩
          · obtain rfl : t.value = q0 := by simpa using hq0
            exact Or.inr ⟨0, by omega, by cases t; simp_all⟩
          · exact Or.inr ⟨i + 1, by omega, by simpa using hi⟩
    · by_cases h2 : t.«from» = "gpt"
      · cases acc with
        | none =>
          simp [reconstructAux, h1, h2] at hp
          obtain ⟨j, hj, hsrc⟩ := ih none p hp a ha
          refine ⟨j + 1, by simpa using hj, ?_⟩
          rcases hsrc with ⟨q0, hq0, hpq⟩ | ⟨i, hij, hi⟩
          · simp at hq0
          · exact Or.inr ⟨i + 1, by omega, by simpa using hi⟩
        | some q =>
          simp [reconstructAux, h1, h2] at hp
          rcases hp with hp | hp
          · subst hp
            obtain rfl : t.value = a := by simpa using ha
            exact ⟨0, by cases t; simp_all, Or.inl ⟨q, rfl, rfl⟩⟩
          · obtain ⟨j, hj, hsrc⟩ := ih none p hp a ha
            refine ⟨j + 1, by simpa using hj, ?_⟩
            rcases hsrc with ⟨q0, hq0, hpq⟩ | ⟨i, hij, hi⟩
            · simp at hq0
            · exact Or.inr ⟨i + 1, by omega, by simpa using hi⟩
      · simp [reconstructAux, h1, h2] at hp
        obtain ⟨j, hj, hsrc⟩ := ih acc p hp a ha
        refine ⟨j + 1, by simpa using hj, ?_⟩
        rcases hsrc with hacc | ⟨i, hij, hi⟩
        · exact Or.inl hacc
        · exact Or.inr ⟨i + 1, by omega, by simpa using hi⟩

/-! ## The edit merge -/

/-- The merge is the blocks of the edited pairs followed by the blocks of
the surviving new pairs. -/
theorem mergeEdits_eq_blocks (edited news : List (String × String)) :
    mergeEdits edited news =
      pairBlocks (edited ++ news.filter fun p => !(p.1 = "" && p.2 = "")) := by
  simp [mergeEdits, pairBlocks, List.flatMap_append]

theorem pairBlocks_alternates (ps : List (String × String)) :
    alternatesHG (pairBlocks ps) = true := by
  induction ps with
  | nil => rfl
  | cons p ps ih => simpa [pairBlocks, alternatesHG] using ih

theorem alternatesHG_spec : ∀ l : List Turn, alternatesHG l = true →
    l.length % 2 = 0 ∧
      ∀ i, ∀ hi : i < l.length,
        (l.get ⟨i, hi⟩).«from» = if i % 2 = 0 then "human" else "gpt"
  | [], _ => by simp
  | [t], h => by simp [alternatesHG] at h
  | t1 :: t2 :: rest, h => by
    rw [alternatesHG] at h
    simp only [Bool.and_eq_true, decide_eq_true_eq] at h
    obtain ⟨⟨hf1, hf2⟩, hrest⟩ := h
    obtain ⟨hlen, hrole⟩ := alternatesHG_spec rest hrest
    refine ⟨by simp [List.length_cons]; omega, ?_⟩
    intro i hi
    match i with
    | 0 => simpa using hf1
    | 1 => simpa using hf2
    | i + 2 =>
      have hi' : i < rest.length := by
        simp only [List.length_cons] at hi; omega
      have hr := hrole i hi'
      have hmod : (i + 2) % 2 = i % 2 := by omega
      simpa [List.get, hmod] using hr

/-- New pairs left untouched (both boxes empty) all fall to the filter. -/
theorem filter_nonempty_of_all_empty (news : List (String × String))
    (h : ∀ p ∈ news, p = ("", "")) :
    news.filter (fun p => !(p.1 = "" && p.2 = "")) = [] := by
  induction news with
  | nil => rfl
  | cons p ps ih =>
    have hp := h p (by simp)
    subst hp
    simpa using ih fun q hq => h q (by simp [hq])

/-- Re-flattening the untouched edit boxes of a complete-pairs turn list
reproduces it: the core of the round-trip property. -/
theorem blocks_reconstruct : ∀ ts : List Turn, alternatesHG ts = true →
    pairBlocks (pairsToEdits (reconstructPairs ts)) = ts
  | [], _ => rfl
  | [t], h => by simp [alternatesHG] at h
  | t1 :: t2 :: rest, h => by
    rw [alternatesHG] at h
    simp only [Bool.and_eq_true, decide_eq_true_eq] at h
    obtain ⟨⟨hf1, hf2⟩, hrest⟩ := h
    have ih := blocks_reconstruct rest hrest
    have hne : ¬t2.«from» = "human" := by simp [hf2]
    have hrec : reconstructPairs (t1 :: t2 :: rest) =
        ⟨t1.value, some t2.value⟩ :: reconstructPairs rest := by
      simp [reconstructPairs, reconstructAux, hf1, hf2, hne]
    rw [hrec]
    cases t1
    cases t2
    simp_all [pairBlocks, pairsToEdits]

/-- Writing a key's current value back into a dict changes nothing. -/
theorem updAssoc_self (kvs : List (String × Json)) (k : String) (v : Json)
    (h : lookupKey kvs k = some v) : updAssoc kvs k v = kvs := by
  induction kvs with
  | nil => simp [lookupKey] at h
  | cons kv kvs ih =>
    by_cases e : kv.1 = k
    · simp only [lookupKey, e, if_true, reduceIte, Option.some.injEq] at h
      simp [updAssoc, ← e, ← h]
    · simp only [lookupKey, e, reduceIte] at h
      simp [updAssoc, e, ih h]

/-! ## Numbers: the printer and the scanner invert each other -/

theorem digitChar_spec (d : Nat) (h : d < 10) :
    (digitChar d).isDigit = true ∧ (digitChar d).toNat = 48 + d := by
  interval_cases d <;> exact ⟨by decide, by decide⟩

/-- Any fuel above the value yields the same digits. -/
theorem natDigitsF_fuel (n : Nat) : ∀ f f', n < f → n < f' →
    natDigitsF f n = natDigitsF f' n := by
  induction n using Nat.strong_induction_on with
  | _ n ih =>
    intro f f' hf hf'
    match f, f' with
    | f0 + 1, f1 + 1 =>
      rw [natDigitsF, natDigitsF]
      by_cases h : n < 10
      · simp [h]
      · have hdiv : n / 10 < n := Nat.div_lt_self (by omega) (by omega)
        simp only [h, reduceIte]
        rw [ih (n / 10) hdiv f0 (n / 10 + 1) (by omega) (by omega),
          ih (n / 10) hdiv f1 (n / 10 + 1) (by omega) (by omega)]

/-- The recursion equation of the digit printer, fuel hidden. -/
theorem natDigits_unfold (n : Nat) :
    natDigits n = if n < 10 then [digitChar n]
      else natDigits (n / 10) ++ [digitChar (n % 10)] := by
  rw [natDigits, natDigitsF]
  by_cases h : n < 10
  · simp [h]
  · simp only [h, reduceIte]
    rw [natDigitsF_fuel (n / 10) n (n / 10 + 1)
      (Nat.div_lt_self (by omega) (by omega)) (by omega)]
    rfl

theorem natDigits_ne_nil (n : Nat) : ¬natDigits n = [] := by
  rw [natDigits_unfold]
  by_cases h : n < 10 <;> simp [h]

theorem natDigits_all_digits (n : Nat) : ∀ c ∈ natDigits n, c.isDigit = true := by
  induction n using Nat.strong_induction_on with
  | _ n ih =>
    rw [natDigits_unfold]
    by_cases h : n < 10
    · intro c hc
      simp [h] at hc
      subst hc
      exact (digitChar_spec n h).1
    · intro c hc
      simp [h] at hc
      rcases hc with hc | hc
      · exact ih (n / 10) (Nat.div_lt_self (by omega) (by omega)) c hc
      · subst hc
        exact (digitChar_spec (n % 10) (Nat.mod_lt _ (by omega))).1

theorem digitsVal_concat (l : List Char) (c : Char) :
    digitsVal (l ++ [c]) = digitsVal l * 10 + (c.toNat - 48) := by
  simp [digitsVal, List.foldl_append]

theorem digitsVal_natDigits (n : Nat) : digitsVal (natDigits n) = n := by
  induction n using Nat.strong_induction_on with
  | _ n ih =>
    rw [natDigits_unfold]
    by_cases h : n < 10
    · simp only [h, if_true, reduceIte]
      have := (digitChar_spec n h).2
      simp [digitsVal]
      omega
    · simp only [h, reduceIte]
      rw [digitsVal_concat, ih (n / 10) (Nat.div_lt_self (by omega) (by omega)),
        (digitChar_spec (n % 10) (Nat.mod_lt _ (by omega))).2]
      omega

theorem natDigits_head_ne_zero (n : Nat) (hn : ¬n = 0) :
    ∃ c t, natDigits n = c :: t ∧ c.isDigit = true ∧ ¬c = '0' := by
  induction n using Nat.strong_induction_on with
  | _ n ih =>
    rw [natDigits_unfold]
    by_cases h : n < 10
    · refine ⟨digitChar n, [], by simp [h], (digitChar_spec n h).1, ?_⟩
      interval_cases n
      · exact absurd rfl hn
      all_goals decide
    · obtain ⟨c, t, heq, hcd, hc0⟩ :=
        ih (n / 10) (Nat.div_lt_self (by omega) (by omega)) (by omega)
      exact ⟨c, t ++ [digitChar (n % 10)], by simp [h, heq], hcd, hc0⟩

theorem takeWhile_append_of_all (p : Char → Bool) (l r : List Char)
    (hl : ∀ c ∈ l, p c = true) :
    (l ++ r).takeWhile p = l ++ r.takeWhile p := by
  induction l with
  | nil => simp
  | cons c t ih =>
    have hc := hl c (by simp)
    simp [List.takeWhile_cons, hc, ih fun x hx => hl x (by simp [hx])]

theorem dropWhile_append_of_all (p : Char → Bool) (l r : List Char)
    (hl : ∀ c ∈ l, p c = true) :
    (l ++ r).dropWhile p = r.dropWhile p := by
  induction l with
  | nil => simp
  | cons c t ih =>
    have hc := hl c (by simp)
    simp [List.dropWhile_cons, hc, ih fun x hx => hl x (by simp [hx])]

theorem numEnd_stops (rest : List Char) (h : numEnd rest = true) :
    rest.takeWhile Char.isDigit = [] ∧ rest.dropWhile Char.isDigit = rest ∧
      isFloatTail rest = false := by
  cases rest with
  | nil => exact ⟨rfl, rfl, rfl⟩
  | cons c t =>
    simp only [numEnd, Bool.not_eq_true', Bool.or_eq_false_iff,
      decide_eq_false_iff_not] at h
    obtain ⟨⟨⟨hd, hdot⟩, he⟩, hE⟩ := h
    refine ⟨by simp [List.takeWhile_cons, hd], by simp [List.dropWhile_cons, hd], ?_⟩
    rw [isFloatTail.eq_def]
    split <;> simp_all

theorem parseIntDigits_natDigits (n : Nat) (rest : List Char) (h : numEnd rest = true) :
    parseIntDigits (natDigits n ++ rest) = some (n, rest) := by
  obtain ⟨htake, hdrop, _⟩ := numEnd_stops rest h
  by_cases h0 : n = 0
  · subst h0
    have h00 : natDigits 0 = ['0'] := rfl
    rw [h00]
    simp [parseIntDigits]
  · obtain ⟨c, t, heq, hcd, hc0⟩ := natDigits_head_ne_zero n h0
    have htail : ∀ x ∈ t, x.isDigit = true := fun x hx =>
      natDigits_all_digits n x (by rw [heq]; exact List.mem_cons_of_mem c hx)
    rw [heq, List.cons_append, parseIntDigits]
    rw [if_neg hc0, if_pos hcd]
    rw [takeWhile_append_of_all _ t rest htail, dropWhile_append_of_all _ t rest htail,
      htake, hdrop, List.append_nil]
    have : digitsVal (c :: t) = n := by rw [← heq, digitsVal_natDigits]
    rw [this]

theorem isDigit_ne_minus (c : Char) (h : c.isDigit = true) : ¬c = '-' :=
  fun hc => absurd h (by rw [hc]; decide)

theorem parseNumber_intRepr (n : Int) (rest : List Char) (h : numEnd rest = true) :
    parseNumber (intRepr n ++ rest) = some (n, rest) := by
  have hfloat := (numEnd_stops rest h).2.2
  rw [intRepr]
  by_cases hn : n < 0
  · simp only [hn, if_true, reduceIte, List.cons_append]
    rw [parseNumber, if_pos rfl, parseIntDigits_natDigits n.natAbs rest h]
    simp only [hfloat, Bool.false_eq_true, reduceIte]
    congr 1
    congr 1
    omega
  · simp only [hn, reduceIte]
    obtain ⟨c, t, heq, hcd⟩ : ∃ c t, natDigits n.natAbs = c :: t ∧ c.isDigit = true := by
      cases hne : natDigits n.natAbs with
      | nil => exact absurd hne (natDigits_ne_nil _)
      | cons c t =>
        exact ⟨c, t, rfl, natDigits_all_digits _ c (by rw [hne]; exact List.mem_cons_self c t)⟩
    rw [heq, List.cons_append, parseNumber, if_neg (isDigit_ne_minus c hcd),
      ← List.cons_append, ← heq, parseIntDigits_natDigits n.natAbs rest h]
    simp only [hfloat, Bool.false_eq_true, reduceIte]
    congr 1
    congr 1
    omega

/-! ## Strings: the escaper and the string scanner invert each other -/

theorem hexVal_hexDigitChar (d : Nat) (h : d < 16) : hexVal (hexDigitChar d) = some d := by
  interval_cases d <;> decide

theorem charFromCode_toNat (c : Char) (h : c.toNat < 55296) :
    charFromCode c.toNat = some c := by
  rw [charFromCode, if_pos (Or.inl h), Char.ofNat_toNat]

theorem parseStringBody_escapeChar (c : Char) (rest : List Char) :
    parseStringBody (escapeChar c ++ rest) =
      match parseStringBody rest with
      | some r => some (c :: r.1, r.2)
      | none => none := by
  rw [escapeChar]
  by_cases hq : c = '"'
  · subst hq
    simp [parseStringBody, unescapeChar]
  · by_cases hb : c = '\\'
    · subst hb
      simp [parseStringBody, unescapeChar]
    · rw [if_neg hq, if_neg hb]
      by_cases hc : c.toNat < 32
      · rw [if_pos hc]
        by_cases h1 : c = '\x08'
        · subst h1; simp [parseStringBody, unescapeChar]
        · rw [if_neg h1]
          by_cases h2 : c = '\x0c'
          · subst h2; simp [parseStringBody, unescapeChar]
          · rw [if_neg h2]
            by_cases h3 : c = '\n'
            · subst h3; simp [parseStringBody, unescapeChar]
            · rw [if_neg h3]
              by_cases h4 : c = '\r'
              · subst h4; simp [parseStringBody, unescapeChar]
              · rw [if_neg h4]
                by_cases h5 : c = '\t'
                · subst h5; simp [parseStringBody, unescapeChar]
                · rw [if_neg h5]
                  have hdiv : c.toNat / 16 < 16 := by omega
                  have hmod : c.toNat % 16 < 16 := by omega
                  have harith :
                      ((0 * 16 + 0) * 16 + c.toNat / 16) * 16 + c.toNat % 16 = c.toNat := by
                    omega
                  simp only [List.cons_append, List.nil_append, parseStringBody,
                    hexVal_hexDigitChar _ hdiv, hexVal_hexDigitChar _ hmod]
                  rw [show hexVal '0' = some 0 from rfl]
                  simp only [harith, charFromCode_toNat c (by omega)]
                  simp
      · rw [if_neg hc]
        rw [List.cons_append, List.nil_append, parseStringBody.eq_def]
        simp [hq, hb, hc]

theorem parseStringBody_escapeList (s : List Char) (rest : List Char) :
    parseStringBody (escapeList s ++ '"' :: rest) = some (s, rest) := by
  induction s with
  | nil => rfl
  | cons c s ih =>
    rw [escapeList, List.flatMap_cons, List.append_assoc]
    have := parseStringBody_escapeChar c (s.flatMap escapeChar ++ '"' :: rest)
    rw [this]
    rw [show escapeList s = s.flatMap escapeChar from rfl] at ih
    rw [ih]

/-! ## The shape of serialized output -/

theorem digit_enum (c : Char) (h : c.isDigit = true) :
    c = '0' ∨ c = '1' ∨ c = '2' ∨ c = '3' ∨ c = '4' ∨
    c = '5' ∨ c = '6' ∨ c = '7' ∨ c = '8' ∨ c = '9' := by
  simp [Char.isDigit] at h
  obtain ⟨h1, h2⟩ := h
  have h1' : (48 : Nat) ≤ c.toNat := h1
  have h2' : c.toNat ≤ (57 : Nat) := h2
  have h10 : c.toNat = 48 ∨ c.toNat = 49 ∨ c.toNat = 50 ∨ c.toNat = 51 ∨ c.toNat = 52 ∨
      c.toNat = 53 ∨ c.toNat = 54 ∨ c.toNat = 55 ∨ c.toNat = 56 ∨ c.toNat = 57 := by
    omega
  have mk : ∀ d : Char, c.toNat = d.toNat → c = d := fun d hd => Char.ext (UInt32.ext hd)
  rcases h10 with h | h | h | h | h | h | h | h | h | h
  · exact .inl (mk _ (h.trans (by decide)))
  · exact .inr (.inl (mk _ (h.trans (by decide))))
  · exact .inr (.inr (.inl (mk _ (h.trans (by decide)))))
  · exact .inr (.inr (.inr (.inl (mk _ (h.trans (by decide))))))
  · exact .inr (.inr (.inr (.inr (.inl (mk _ (h.trans (by decide)))))))
  · exact .inr (.inr (.inr (.inr (.inr (.inl (mk _ (h.trans (by decide))))))))
  · exact .inr (.inr (.inr (.inr (.inr (.inr (.inl
      (mk _ (h.trans (by decide)))))))))
  · exact .inr (.inr (.inr (.inr (.inr (.inr (.inr (.inl
      (mk _ (h.trans (by decide))))))))))
  · exact Or.inr (.inr (.inr (.inr (.inr (.inr (.inr (.inr (.inl
      (mk _ (h.trans (by decide)))))))))))
  · exact .inr (.inr (.inr (.inr (.inr (.inr (.inr (.inr (.inr
      (mk _ (h.trans (by decide)))))))))))

theorem natDigits_cons_digit (n : Nat) :
    ∃ c t, natDigits n = c :: t ∧ c.isDigit = true := by
  cases hne : natDigits n with
  | nil => exact absurd hne (natDigits_ne_nil n)
  | cons c t =>
    exact ⟨c, t, rfl, natDigits_all_digits n c (by rw [hne]; exact List.mem_cons_self c t)⟩

/-- The first character of any serialized value, with everything later
proofs need to know about it. -/
theorem dumps_head_facts (j : Json) : ∃ c t, dumps j = c :: t ∧
    jsonWs c = false ∧ ¬c = ']' ∧ ¬c = '\x7d' ∧ pyStripWs c = false ∧ ¬c = '\n' := by
  have digit : ∀ c : Char, c.isDigit = true →
      jsonWs c = false ∧ ¬c = ']' ∧ ¬c = '\x7d' ∧ pyStripWs c = false ∧ ¬c = '\n' := by
    intro c h
    rcases digit_enum c h with rfl | rfl | rfl | rfl | rfl | rfl | rfl | rfl | rfl | rfl <;>
      exact by decide
  cases j with
  | null => exact ⟨'n', _, rfl, by decide, by decide, by decide, by decide, by decide⟩
  | bool b =>
    cases b with
    | false => exact ⟨'f', _, rfl, by decide, by decide, by decide, by decide, by decide⟩
    | true => exact ⟨'t', _, rfl, by decide, by decide, by decide, by decide, by decide⟩
  | str s => exact ⟨'"', _, rfl, by decide, by decide, by decide, by decide, by decide⟩
  | num n =>
    by_cases hn : n < 0
    · refine ⟨'-', natDigits n.natAbs,
        by rw [show dumps (.num n) = intRepr n from rfl, intRepr, if_pos hn], ?_, ?_, ?_, ?_, ?_⟩ <;>
        decide
    · obtain ⟨c, t, heq, hcd⟩ := natDigits_cons_digit n.natAbs
      obtain ⟨w1, w2, w3, w4, w5⟩ := digit c hcd
      exact ⟨c, t, by rw [show dumps (.num n) = intRepr n from rfl, intRepr, if_neg hn, heq],
        w1, w2, w3, w4, w5⟩
  | arr xs =>
    cases xs with
    | nil => exact ⟨'[', _, rfl, by decide, by decide, by decide, by decide, by decide⟩
    | cons x xs => exact ⟨'[', _, rfl, by decide, by decide, by decide, by decide, by decide⟩
  | obj kvs =>
    cases kvs with
    | nil => exact ⟨'\x7b', _, rfl, by decide, by decide, by decide, by decide, by decide⟩
    | cons kv kvs =>
      exact ⟨'\x7b', _, rfl, by decide, by decide, by decide, by decide, by decide⟩

theorem dumps_ne_nil (j : Json) : ¬dumps j = [] := by
  obtain ⟨c, t, heq, _⟩ := dumps_head_facts j
  simp [heq]

theorem skipWs_cons_of (c : Char) (t : List Char) (h : jsonWs c = false) :
    skipWs (c :: t) = c :: t := by
  simp [skipWs, h]

theorem skipWs_dumps (j : Json) (r : List Char) :
    skipWs (dumps j ++ r) = dumps j ++ r := by
  obtain ⟨c, t, heq, hws, _⟩ := dumps_head_facts j
  rw [heq, List.cons_append]
  exact skipWs_cons_of c (t ++ r) hws

/-- The last character of any serialized value is no strip whitespace. -/
theorem dumps_last_facts (j : Json) :
    ∃ c, (dumps j).getLast? = some c ∧ pyStripWs c = false := by
  have digit : ∀ c : Char, c.isDigit = true → pyStripWs c = false := by
    intro c h
    rcases digit_enum c h with rfl | rfl | rfl | rfl | rfl | rfl | rfl | rfl | rfl | rfl <;>
      decide
  have natLast : ∀ m : Nat, ∃ c, (natDigits m).getLast? = some c ∧ pyStripWs c = false := by
    intro m
    cases hl : (natDigits m).getLast? with
    | none =>
      exfalso
      have := List.getLast?_isSome.mpr (natDigits_ne_nil m)
      rw [hl] at this
      simp at this
    | some c =>
      exact ⟨c, rfl, digit c (natDigits_all_digits m c (List.mem_of_mem_getLast? hl))⟩
  cases j with
  | null => exact ⟨'l', by decide, by decide⟩
  | bool b =>
    cases b with
    | false => exact ⟨'e', by decide, by decide⟩
    | true => exact ⟨'e', by decide, by decide⟩
  | str s =>
    refine ⟨'"', ?_, by decide⟩
    rw [show dumps (.str s) = '"' :: (escapeList s.data ++ ['"']) from rfl,
      show ('"' : Char) :: (escapeList s.data ++ ['"']) =
        ('"' :: escapeList s.data) ++ ['"'] from by simp,
      List.getLast?_concat]
  | num n =>
    obtain ⟨c, hc, hw⟩ := natLast n.natAbs
    by_cases hn : n < 0
    · refine ⟨c, ?_, hw⟩
      rw [show dumps (.num n) = intRepr n from rfl, intRepr, if_pos hn]
      obtain ⟨d, t, heq, _⟩ := natDigits_cons_digit n.natAbs
      rw [heq, List.getLast?_cons_cons, ← heq]
      exact hc
    · refine ⟨c, ?_, hw⟩
      rw [show dumps (.num n) = intRepr n from rfl, intRepr, if_neg hn]
      exact hc
  | arr xs =>
    cases xs with
    | nil => exact ⟨']', by decide, by decide⟩
    | cons x xs =>
      refine ⟨']', ?_, by decide⟩
      rw [show dumps (.arr (x :: xs)) = '[' :: (dumps x ++ dumpsTail xs ++ [']']) from rfl,
        show ('[' : Char) :: (dumps x ++ dumpsTail xs ++ [']']) =
          ('[' :: (dumps x ++ dumpsTail xs)) ++ [']'] from by simp,
        List.getLast?_concat]
  | obj kvs =>
    cases kvs with
    | nil => exact ⟨'\x7d', by decide, by decide⟩
    | cons kv kvs =>
      refine ⟨'\x7d', ?_, by decide⟩
      rw [show dumps (.obj (kv :: kvs)) =
          '\x7b' :: (dumpStr kv.1 ++ ':' :: ' ' :: dumps kv.2 ++ dumpsMTail kvs ++ ['\x7d'])
          from rfl,
        show ('\x7b' : Char) ::
            (dumpStr kv.1 ++ ':' :: ' ' :: dumps kv.2 ++ dumpsMTail kvs ++ ['\x7d']) =
          ('\x7b' :: (dumpStr kv.1 ++ ':' :: ' ' :: dumps kv.2 ++ dumpsMTail kvs)) ++ ['\x7d']
          from by simp,
        List.getLast?_concat]

/-! ## Stripping and splitting serialized lines -/

theorem dropWhile_cons_false (p : Char → Bool) (c : Char) (t : List Char)
    (h : p c = false) : (c :: t).dropWhile p = c :: t := by
  simp [List.dropWhile_cons, h]

/-- Stripping text whose two ends are no strip whitespace is the
identity. -/
theorem pyStrip_eq_self (l : List Char)
    (hhead : ∀ c, l.head? = some c → pyStripWs c = false)
    (hlast : ∀ c, l.getLast? = some c → pyStripWs c = false) :
    pyStrip l = l := by
  cases l with
  | nil => rfl
  | cons c t =>
    rw [pyStrip, dropWhile_cons_false _ c t (hhead c rfl)]
    cases hr : (c :: t).reverse with
    | nil => simp at hr
    | cons d r =>
      have hd : (c :: t).getLast? = some d := by
        rw [← List.head?_reverse, hr]
        rfl
      rw [dropWhile_cons_false _ d r (hlast d hd), ← hr, List.reverse_reverse]

/-- Stripping a serialized line with its newline removes exactly the
newline. -/
theorem pyStrip_append_nl (l : List Char)
    (hhead : ∀ c, l.head? = some c → pyStripWs c = false)
    (hlast : ∀ c, l.getLast? = some c → pyStripWs c = false) :
    pyStrip (l ++ ['\n']) = l := by
  cases l with
  | nil => rfl
  | cons c t =>
    rw [pyStrip, List.cons_append, dropWhile_cons_false _ c (t ++ ['\n']) (hhead c rfl)]
    rw [show (c :: (t ++ ['\n'])) = (c :: t) ++ ['\n'] from by simp]
    rw [List.reverse_append]
    rw [show (['\n'] : List Char).reverse = ['\n'] from rfl]
    rw [show ('\n' :: []) ++ (c :: t).reverse = '\n' :: (c :: t).reverse from rfl]
    rw [List.dropWhile_cons]
    rw [show pyStripWs '\n' = true from rfl]
    simp only [if_true, reduceIte]
    cases hr : (c :: t).reverse with
    | nil => simp at hr
    | cons d r =>
      have hd : (c :: t).getLast? = some d := by
        rw [← List.head?_reverse, hr]
        rfl
      rw [dropWhile_cons_false _ d r (hlast d hd), ← hr, List.reverse_reverse]

theorem pyStrip_dumps (j : Json) : pyStrip (dumps j) = dumps j := by
  obtain ⟨c, t, heq, _, _, _, hstrip, _⟩ := dumps_head_facts j
  obtain ⟨d, hd, hdw⟩ := dumps_last_facts j
  refine pyStrip_eq_self (dumps j) ?_ ?_
  · intro x hx
    rw [heq] at hx
    cases hx
    exact hstrip
  · intro x hx
    rw [hd] at hx
    cases hx
    exact hdw

theorem pyStrip_dumps_nl (j : Json) : pyStrip (dumps j ++ ['\n']) = dumps j := by
  obtain ⟨c, t, heq, _, _, _, hstrip, _⟩ := dumps_head_facts j
  obtain ⟨d, hd, hdw⟩ := dumps_last_facts j
  refine pyStrip_append_nl (dumps j) ?_ ?_
  · intro x hx
    rw [heq] at hx
    cases hx
    exact hstrip
  · intro x hx
    rw [hd] at hx
    cases hx
    exact hdw

theorem hexDigitChar_ne_nl (d : Nat) : ¬hexDigitChar d = '\n' := by
  rcases Nat.lt_or_ge d 15 with h | h
  · interval_cases d <;> decide
  · obtain ⟨e, rfl⟩ : ∃ e, d = e + 15 := ⟨d - 15, by omega⟩
    exact (by decide : ¬('f' : Char) = '\n')

theorem escapeChar_no_nl (c : Char) : ∀ x ∈ escapeChar c, ¬x = '\n' := by
  rw [escapeChar]
  by_cases hq : c = '"'
  · subst hq; decide
  · rw [if_neg hq]
    by_cases hb : c = '\\'
    · subst hb; decide
    · rw [if_neg hb]
      by_cases hc : c.toNat < 32
      · rw [if_pos hc]
        by_cases h1 : c = '\x08'
        · subst h1; decide
        · rw [if_neg h1]
          by_cases h2 : c = '\x0c'
          · subst h2; decide
          · rw [if_neg h2]
            by_cases h3 : c = '\n'
            · subst h3; decide
            · rw [if_neg h3]
              by_cases h4 : c = '\r'
              · subst h4; decide
              · rw [if_neg h4]
                by_cases h5 : c = '\t'
                · subst h5; decide
                · rw [if_neg h5]
                  intro x hx
                  simp only [List.not_mem_nil, List.mem_cons, or_false] at hx
                  rcases hx with rfl | rfl | rfl | rfl | rfl | rfl
                  · decide
                  · decide
                  · decide
                  · decide
                  · exact hexDigitChar_ne_nl _
                  · exact hexDigitChar_ne_nl _
      · rw [if_neg hc]
        intro x hx
        simp only [List.not_mem_nil, List.mem_cons, or_false] at hx
        subst hx
        intro hnl
        subst hnl
        exact hc (by decide)

theorem escapeList_no_nl (s : List Char) : ∀ x ∈ escapeList s, ¬x = '\n' := by
  intro x hx
  rw [escapeList] at hx
  obtain ⟨c, _, hc⟩ := List.mem_flatMap.mp hx
  exact escapeChar_no_nl c x hc

theorem dumpStr_no_nl (k : String) : ∀ x ∈ dumpStr k, ¬x = '\n' := by
  intro x hx
  rw [dumpStr] at hx
  rcases List.mem_cons.mp hx with rfl | hx
  · decide
  rcases List.mem_append.mp hx with hx | hx
  · exact escapeList_no_nl _ x hx
  · simp only [List.mem_singleton] at hx
    subst hx
    decide

theorem digit_ne_nl (y : Char) (h : y.isDigit = true) : ¬y = '\n' := by
  rcases digit_enum y h with rfl | rfl | rfl | rfl | rfl | rfl | rfl | rfl | rfl | rfl <;>
    decide

mutual

theorem dumps_no_nl : ∀ j : Json, ∀ x ∈ dumps j, ¬x = '\n'
  | .null => by decide
  | .bool b => by cases b <;> decide
  | .num n => by
    intro x hx
    rw [show dumps (.num n) = intRepr n from rfl, intRepr] at hx
    by_cases hn : n < 0
    · rw [if_pos hn] at hx
      rcases List.mem_cons.mp hx with rfl | hx
      · decide
      · exact digit_ne_nl x (natDigits_all_digits _ x hx)
    · rw [if_neg hn] at hx
      exact digit_ne_nl x (natDigits_all_digits _ x hx)
  | .str s => by
    intro x hx
    exact dumpStr_no_nl s x hx
  | .arr [] => by decide
  | .arr (x :: xs) => by
    intro y hy
    rw [show dumps (.arr (x :: xs)) = '[' :: (dumps x ++ dumpsTail xs ++ [']']) from rfl] at hy
    rcases List.mem_cons.mp hy with rfl | hy
    · decide
    rcases List.mem_append.mp hy with hy | hy
    · rcases List.mem_append.mp hy with hy | hy
      · exact dumps_no_nl x y hy
      · exact dumpsTail_no_nl xs y hy
    · simp only [List.mem_singleton] at hy
      subst hy
      decide
  | .obj [] => by decide
  | .obj (kv :: kvs) => by
    intro y hy
    rw [show dumps (.obj (kv :: kvs)) =
      '\x7b' :: (dumpStr kv.1 ++ ':' :: ' ' :: dumps kv.2 ++ dumpsMTail kvs ++ ['\x7d'])
      from rfl] at hy
    simp only [List.append_assoc, List.cons_append, List.mem_cons, List.mem_append,
      List.mem_singleton] at hy
    rcases hy with rfl | hy | rfl | rfl | hy | hy | rfl | hy
    · decide
    · exact dumpStr_no_nl kv.1 y hy
    · decide
    · decide
    · exact dumps_no_nl kv.2 y hy
    · exact dumpsMTail_no_nl kvs y hy
    · decide
    · simp at hy

theorem dumpsTail_no_nl : ∀ xs : List Json, ∀ x ∈ dumpsTail xs, ¬x = '\n'
  | [] => by intro x hx; simp [dumpsTail] at hx
  | x :: xs => by
    intro y hy
    rw [show dumpsTail (x :: xs) = ',' :: ' ' :: (dumps x ++ dumpsTail xs) from rfl] at hy
    rcases List.mem_cons.mp hy with rfl | hy
    · decide
    rcases List.mem_cons.mp hy with rfl | hy
    · decide
    rcases List.mem_append.mp hy with hy | hy
    · exact dumps_no_nl x y hy
    · exact dumpsTail_no_nl xs y hy

theorem dumpsMTail_no_nl : ∀ kvs : List (String × Json), ∀ x ∈ dumpsMTail kvs, ¬x = '\n'
  | [] => by intro x hx; simp [dumpsMTail] at hx
  | kv :: kvs => by
    intro y hy
    rw [show dumpsMTail (kv :: kvs) =
      ',' :: ' ' :: (dumpStr kv.1 ++ ':' :: ' ' :: dumps kv.2 ++ dumpsMTail kvs) from rfl] at hy
    simp only [List.append_assoc, List.cons_append, List.mem_cons, List.mem_append] at hy
    rcases hy with rfl | rfl | hy | rfl | rfl | hy | hy
    · decide
    · decide
    · exact dumpStr_no_nl kv.1 y hy
    · decide
    · decide
    · exact dumps_no_nl kv.2 y hy
    · exact dumpsMTail_no_nl kvs y hy

end

/-! ## Splitting serialized text back into lines -/

theorem fileLines_append_nl (l rest : List Char) (h : ∀ x ∈ l, ¬x = '\n') :
    fileLines (l ++ '\n' :: rest) = (l ++ ['\n']) :: fileLines rest := by
  induction l with
  | nil => simp [fileLines]
  | cons c t ih =>
    have hc : ¬c = '\n' := h c (by simp)
    have iht := ih fun x hx => h x (by simp [hx])
    simp [fileLines, hc, iht]

theorem fileLines_no_nl (l : List Char) (hne : ¬l = []) (h : ∀ x ∈ l, ¬x = '\n') :
    fileLines l = [l] := by
  induction l with
  | nil => exact absurd rfl hne
  | cons c t ih =>
    have hc : ¬c = '\n' := h c (by simp)
    by_cases ht : t = []
    · subst ht
      simp [fileLines, hc]
    · have iht := ih ht fun x hx => h x (by simp [hx])
      simp [fileLines, hc, iht]

/-! ## Remainders a number may stop at -/

theorem numEnd_rbrack (r : List Char) : numEnd (']' :: r) = true := rfl

theorem numEnd_rbrace (r : List Char) : numEnd ('\x7d' :: r) = true := rfl

theorem numEnd_comma (r : List Char) : numEnd (',' :: r) = true := rfl

theorem numEnd_nl (r : List Char) : numEnd ('\n' :: r) = true := rfl

theorem numEnd_dumpsTail (xs : List Json) (r : List Char) :
    numEnd (dumpsTail xs ++ ']' :: r) = true := by
  cases xs with
  | nil => exact numEnd_rbrack r
  | cons x xs =>
    rw [show dumpsTail (x :: xs) = ',' :: ' ' :: (dumps x ++ dumpsTail xs) from rfl]
    exact numEnd_comma _

theorem numEnd_dumpsMTail (kvs : List (String × Json)) (r : List Char) :
    numEnd (dumpsMTail kvs ++ '\x7d' :: r) = true := by
  cases kvs with
  | nil => exact numEnd_rbrace r
  | cons kv kvs =>
    rw [show dumpsMTail (kv :: kvs) =
      ',' :: ' ' :: (dumpStr kv.1 ++ ':' :: ' ' :: dumps kv.2 ++ dumpsMTail kvs) from rfl]
    exact numEnd_comma _

/-! ## Rebuilding a dict from parsed members -/

theorem hasKey_false_iff (kvs : List (String × Json)) (k : String) :
    hasKey kvs k = false ↔ ∀ kv ∈ kvs, ¬kv.1 = k := by
  simp [hasKey]

theorem updAssoc_fresh (acc : List (String × Json)) (k : String) (v : Json)
    (h : hasKey acc k = false) : updAssoc acc k v = acc ++ [(k, v)] := by
  induction acc with
  | nil => rfl
  | cons kv acc ih =>
    rw [hasKey] at h
    simp only [List.any_cons, Bool.or_eq_false_iff, decide_eq_false_iff_not] at h
    obtain ⟨h1, h2⟩ := h
    rw [updAssoc, if_neg h1, ih (by rw [hasKey]; simpa using h2)]
    rfl

theorem dictify_go (ps : List (String × Json)) :
    ∀ acc, nodupKeys ps = true → (∀ kv ∈ ps, hasKey acc kv.1 = false) →
    ps.foldl (fun a kv => updAssoc a kv.1 kv.2) acc = acc ++ ps := by
  induction ps with
  | nil => intro acc _ _; simp
  | cons kv ps ih =>
    intro acc hnd hfresh
    rw [nodupKeys] at hnd
    simp only [Bool.and_eq_true, Bool.not_eq_true'] at hnd
    obtain ⟨hk, hnd2⟩ := hnd
    rw [List.foldl_cons, updAssoc_fresh acc kv.1 kv.2 (hfresh kv (by simp))]
    have hfresh2 : ∀ kv' ∈ ps, hasKey (acc ++ [(kv.1, kv.2)]) kv'.1 = false := by
      intro kv' hm
      rw [hasKey]
      simp only [List.any_append, List.any_cons, List.any_nil, Bool.or_eq_false_iff,
        decide_eq_false_iff_not]
      refine ⟨by rw [← hasKey]; exact hfresh kv' (by simp [hm]), ?_, trivial⟩
      intro heq
      have := (hasKey_false_iff ps kv.1).mp hk kv' hm
      exact this heq.symm
    rw [ih (acc ++ [(kv.1, kv.2)]) hnd2 hfresh2]
    simp

theorem dictify_eq_self (kvs : List (String × Json)) (h : nodupKeys kvs = true) :
    dictify kvs = kvs := by
  rw [dictify, dictify_go kvs [] h (by intro kv _; rw [hasKey]; simp)]
  rfl

/-! ## One-step views of the scanner -/

theorem string_mk_data (s : String) : String.mk s.data = s := by
  cases s
  rfl

theorem parseValue_quote (fuel : Nat) (tail : List Char) :
    parseValue (fuel + 1) ('"' :: tail) =
      match parseStringBody tail with
      | some r => some (.str (String.mk r.1), r.2)
      | none => none := rfl

theorem parseMember_quote (fuel : Nat) (tail : List Char) :
    parseMember (fuel + 1) ('"' :: tail) =
      match parseStringBody tail with
      | some kr =>
        match skipWs kr.2 with
        | ':' :: r3 =>
          match parseValue fuel (skipWs r3) with
          | some (v, r4) => some ((String.mk kr.1, v), r4)
          | none => none
        | _ => none
      | none => none := rfl

theorem parseArrayTail_comma (fuel : Nat) (t : List Char) :
    parseArrayTail (fuel + 1) (',' :: t) =
      match parseValue fuel (skipWs t) with
      | some (x, r2) =>
        match parseArrayTail fuel r2 with
        | some (xs, r3) => some (x :: xs, r3)
        | none => none
      | none => none := rfl

theorem parseObjTail_comma (fuel : Nat) (t : List Char) :
    parseObjTail (fuel + 1) (',' :: t) =
      match parseMember fuel (skipWs t) with
      | some (kv, r2) =>
        match parseObjTail fuel r2 with
        | some (kvs, r3) => some (kv :: kvs, r3)
        | none => none
      | none => none := rfl

theorem digit_ne_starts (c : Char) (h : c.isDigit = true) :
    ¬c = '"' ∧ ¬c = '\x7b' ∧ ¬c = '[' ∧ ¬c = 'n' ∧ ¬c = 't' ∧ ¬c = 'f' := by
  rcases digit_enum c h with rfl | rfl | rfl | rfl | rfl | rfl | rfl | rfl | rfl | rfl <;>
    exact by decide

/-- A value whose text opens with none of the structural characters can
only be scanned as a number. -/
theorem parseValue_other (fuel : Nat) (c : Char) (t : List Char)
    (h1 : ¬c = '"') (h2 : ¬c = '\x7b') (h3 : ¬c = '[')
    (h4 : ¬c = 'n') (h5 : ¬c = 't') (h6 : ¬c = 'f') :
    parseValue (fuel + 1) (c :: t) =
      match parseNumber (c :: t) with
      | some r => some (.num r.1, r.2)
      | none => none := by
  rw [parseValue.eq_def]
  simp [h1, h2, h3, h4, h5, h6]

theorem parseValue_lbrack (fuel : Nat) (tail : List Char) :
    parseValue (fuel + 1) ('[' :: tail) =
      match skipWs tail with
      | ']' :: r2 => some (.arr [], r2)
      | r2 =>
        match parseValue fuel r2 with
        | some (x, r3) =>
          match parseArrayTail fuel r3 with
          | some (xs, r4) => some (.arr (x :: xs), r4)
          | none => none
        | none => none := rfl

theorem parseValue_lbrace (fuel : Nat) (tail : List Char) :
    parseValue (fuel + 1) ('\x7b' :: tail) =
      match skipWs tail with
      | '\x7d' :: r2 => some (.obj [], r2)
      | r2 =>
        match parseMember fuel r2 with
        | some (kv, r3) =>
          match parseObjTail fuel r3 with
          | some (kvs, r4) => some (.obj (dictify (kv :: kvs)), r4)
          | none => none
        | none => none := rfl

/-- The scanner on a nonempty array: the bracket, then the first element,
then the element loop. -/
theorem parseValue_arr_cons (fuel : Nat) (c : Char) (t : List Char)
    (hws : jsonWs c = false) (hbr : ¬c = ']') :
    parseValue (fuel + 1) ('[' :: (c :: t)) =
      match parseValue fuel (c :: t) with
      | some (x, r3) =>
        match parseArrayTail fuel r3 with
        | some (xs, r4) => some (.arr (x :: xs), r4)
        | none => none
      | none => none := by
  rw [parseValue_lbrack, skipWs_cons_of c t hws]
  split
  · rename_i r2 heq
    injection heq with h1 h2
    exact absurd h1 hbr
  · rfl

/-- The scanner on a nonempty object: the brace, then the first member,
then the member loop. -/
theorem parseValue_obj_cons (fuel : Nat) (c : Char) (t : List Char)
    (hws : jsonWs c = false) (hbr : ¬c = '\x7d') :
    parseValue (fuel + 1) ('\x7b' :: (c :: t)) =
      match parseMember fuel (c :: t) with
      | some (kv, r3) =>
        match parseObjTail fuel r3 with
        | some (kvs, r4) => some (.obj (dictify (kv :: kvs)), r4)
        | none => none
      | none => none := by
  rw [parseValue_lbrace, skipWs_cons_of c t hws]
  split
  · rename_i r2 heq
    injection heq with h1 h2
    exact absurd h1 hbr
  · rfl

/-! ## The scanner inverts the serializer -/

mutual

theorem rtValue : ∀ (j : Json) (fuel : Nat) (rest : List Char),
    Json.wf j = true → (dumps j).length < fuel → numEnd rest = true →
    parseValue fuel (dumps j ++ rest) = some (j, rest)
  | .null, fuel, rest, _, hf, _ => by
    cases fuel with
    | zero => omega
    | succ f => rfl
  | .bool b, fuel, rest, _, hf, _ => by
    cases fuel with
    | zero => omega
    | succ f => cases b <;> rfl
  | .num n, fuel, rest, _, hf, hrest => by
    cases fuel with
    | zero => omega
    | succ f =>
      rw [show dumps (.num n) = intRepr n from rfl]
      by_cases hn : n < 0
      · have hrepr : intRepr n = '-' :: natDigits n.natAbs := by
          rw [intRepr, if_pos hn]
        rw [hrepr, List.cons_append,
          parseValue_other f '-' _ (by decide) (by decide) (by decide) (by decide)
            (by decide) (by decide),
          ← List.cons_append, ← hrepr, parseNumber_intRepr n rest hrest]
      · obtain ⟨c, t, heq, hcd⟩ := natDigits_cons_digit n.natAbs
        obtain ⟨d1, d2, d3, d4, d5, d6⟩ := digit_ne_starts c hcd
        have hrepr : intRepr n = c :: t := by
          rw [intRepr, if_neg hn, heq]
        rw [hrepr, List.cons_append,
          parseValue_other f c _ d1 d2 d3 d4 d5 d6,
          ← List.cons_append, ← hrepr, parseNumber_intRepr n rest hrest]
  | .str s, fuel, rest, _, hf, _ => by
    cases fuel with
    | zero => omega
    | succ f =>
      rw [show dumps (.str s) ++ rest = '"' :: (escapeList s.data ++ '"' :: rest) from by
        rw [show dumps (.str s) = '"' :: (escapeList s.data ++ ['"']) from rfl]
        simp]
      rw [parseValue_quote, parseStringBody_escapeList]
  | .arr [], fuel, rest, _, hf, _ => by
    cases fuel with
    | zero => omega
    | succ f => rfl
  | .arr (x :: xs), fuel, rest, hwf, hf, hrest => by
    cases fuel with
    | zero => omega
    | succ f =>
      obtain ⟨c, t, hx, hws, hbr, _, _, _⟩ := dumps_head_facts x
      have hwf1 : Json.wf x = true ∧ Json.wfElems xs = true := by
        rw [show Json.wf (.arr (x :: xs)) = (Json.wf x && Json.wfElems xs) from rfl] at hwf
        simpa using hwf
      have hlen : (dumps x).length < f ∧ (dumpsTail xs).length < f := by
        rw [show dumps (.arr (x :: xs)) = '[' :: (dumps x ++ dumpsTail xs ++ [']'])
          from rfl] at hf
        simp only [List.length_cons, List.length_append] at hf
        omega
      rw [show dumps (.arr (x :: xs)) ++ rest =
          '[' :: (dumps x ++ (dumpsTail xs ++ ']' :: rest)) from by
        rw [show dumps (.arr (x :: xs)) = '[' :: (dumps x ++ dumpsTail xs ++ [']'])
          from rfl]
        simp]
      rw [show dumps x ++ (dumpsTail xs ++ ']' :: rest) =
          c :: (t ++ (dumpsTail xs ++ ']' :: rest)) from by rw [hx]; simp]
      rw [parseValue_arr_cons f c _ hws hbr]
      rw [show c :: (t ++ (dumpsTail xs ++ ']' :: rest)) =
          dumps x ++ (dumpsTail xs ++ ']' :: rest) from by rw [hx]; simp]
      simp only [rtValue x f _ hwf1.1 hlen.1 (numEnd_dumpsTail xs rest),
        rtArrayTail xs f rest hwf1.2 hlen.2]
  | .obj [], fuel, rest, _, hf, _ => by
    cases fuel with
    | zero => omega
    | succ f => rfl
  | .obj (kv :: kvs), fuel, rest, hwf, hf, hrest => by
    cases fuel with
    | zero => omega
    | succ f =>
      have hwf1 : nodupKeys (kv :: kvs) = true ∧ Json.wf kv.2 = true ∧
          Json.wfMembers kvs = true := by
        rw [show Json.wf (.obj (kv :: kvs)) =
          (nodupKeys (kv :: kvs) && (Json.wf kv.2 && Json.wfMembers kvs)) from rfl] at hwf
        simpa using hwf
      have hlen : (dumpStr kv.1).length + 2 + (dumps kv.2).length < f ∧
          (dumpsMTail kvs).length < f := by
        rw [show dumps (.obj (kv :: kvs)) =
          '\x7b' :: (dumpStr kv.1 ++ ':' :: ' ' :: dumps kv.2 ++ dumpsMTail kvs ++ ['\x7d'])
          from rfl] at hf
        simp only [List.length_cons, List.length_append] at hf
        omega
      rw [show dumps (.obj (kv :: kvs)) ++ rest =
          '\x7b' :: (dumpStr kv.1 ++ (':' :: ' ' ::
            (dumps kv.2 ++ (dumpsMTail kvs ++ '\x7d' :: rest)))) from by
        rw [show dumps (.obj (kv :: kvs)) =
          '\x7b' :: (dumpStr kv.1 ++ ':' :: ' ' :: dumps kv.2 ++ dumpsMTail kvs ++ ['\x7d'])
          from rfl]
        simp]
      rw [show dumpStr kv.1 ++ (':' :: ' ' ::
            (dumps kv.2 ++ (dumpsMTail kvs ++ '\x7d' :: rest))) =
          '"' :: (escapeList kv.1.data ++ '"' ::
            (':' :: ' ' :: (dumps kv.2 ++ (dumpsMTail kvs ++ '\x7d' :: rest)))) from by
        rw [show dumpStr kv.1 = '"' :: (escapeList kv.1.data ++ ['"']) from rfl]
        simp]
      rw [parseValue_obj_cons f '"' _ (by decide) (by decide)]
      rw [show ('"' : Char) :: (escapeList kv.1.data ++ '"' ::
            (':' :: ' ' :: (dumps kv.2 ++ (dumpsMTail kvs ++ '\x7d' :: rest)))) =
          dumpStr kv.1 ++ (':' :: ' ' ::
            (dumps kv.2 ++ (dumpsMTail kvs ++ '\x7d' :: rest))) from by
        rw [show dumpStr kv.1 = '"' :: (escapeList kv.1.data ++ ['"']) from rfl]
        simp]
      simp only [rtMember kv f (dumpsMTail kvs ++ '\x7d' :: rest) hwf1.2.1 hlen.1
        (numEnd_dumpsMTail kvs rest), rtObjTail kvs f rest hwf1.2.2 hlen.2,
        dictify_eq_self (kv :: kvs) hwf1.1]
  termination_by j _ _ _ _ _ => sizeOf j

theorem rtArrayTail : ∀ (xs : List Json) (fuel : Nat) (rest : List Char),
    Json.wfElems xs = true → (dumpsTail xs).length < fuel →
    parseArrayTail fuel (dumpsTail xs ++ ']' :: rest) = some (xs, rest)
  | [], fuel, rest, _, hf => by
    cases fuel with
    | zero => omega
    | succ f => rfl
  | x :: xs, fuel, rest, hwf, hf => by
    cases fuel with
    | zero => omega
    | succ f =>
      have hwf1 : Json.wf x = true ∧ Json.wfElems xs = true := by
        rw [show Json.wfElems (x :: xs) = (Json.wf x && Json.wfElems xs) from rfl] at hwf
        simpa using hwf
      have hlen : (dumps x).length < f ∧ (dumpsTail xs).length < f := by
        rw [show dumpsTail (x :: xs) = ',' :: ' ' :: (dumps x ++ dumpsTail xs) from rfl] at hf
        simp only [List.length_cons, List.length_append] at hf
        omega
      rw [show dumpsTail (x :: xs) ++ ']' :: rest =
          ',' :: ' ' :: (dumps x ++ (dumpsTail xs ++ ']' :: rest)) from by
        rw [show dumpsTail (x :: xs) = ',' :: ' ' :: (dumps x ++ dumpsTail xs) from rfl]
        simp]
      rw [parseArrayTail_comma]
      rw [show skipWs (' ' :: (dumps x ++ (dumpsTail xs ++ ']' :: rest))) =
          dumps x ++ (dumpsTail xs ++ ']' :: rest) from by
        rw [show skipWs (' ' :: (dumps x ++ (dumpsTail xs ++ ']' :: rest))) =
          skipWs (dumps x ++ (dumpsTail xs ++ ']' :: rest)) from by simp [skipWs, jsonWs]]
        exact skipWs_dumps x _]
      simp only [rtValue x f _ hwf1.1 hlen.1 (numEnd_dumpsTail xs rest),
        rtArrayTail xs f rest hwf1.2 hlen.2]
  termination_by xs _ _ _ _ => sizeOf xs

theorem rtMember : ∀ (kv : String × Json) (fuel : Nat) (rest : List Char),
    Json.wf kv.2 = true → (dumpStr kv.1).length + 2 + (dumps kv.2).length < fuel →
    numEnd rest = true →
    parseMember fuel (dumpStr kv.1 ++ (':' :: ' ' :: (dumps kv.2 ++ rest))) =
      some (kv, rest)
  | (k, v), fuel, rest, hwf, hf, hrest => by
    cases fuel with
    | zero => omega
    | succ f =>
      rw [show dumpStr k ++ (':' :: ' ' :: (dumps v ++ rest)) =
          '"' :: (escapeList k.data ++ '"' :: (':' :: ' ' :: (dumps v ++ rest))) from by
        rw [show dumpStr k = '"' :: (escapeList k.data ++ ['"']) from rfl]
        simp]
      have hflen : (dumps v).length < f := by
        rw [show dumpStr (k, v).1 = '"' :: (escapeList k.data ++ ['"']) from rfl] at hf
        simp only [List.length_cons, List.length_append] at hf
        omega
      have hskip1 : skipWs (':' :: ' ' :: (dumps v ++ rest)) =
          ':' :: ' ' :: (dumps v ++ rest) := skipWs_cons_of _ _ (by decide)
      have hskip2 : skipWs (' ' :: (dumps v ++ rest)) = dumps v ++ rest := by
        rw [show skipWs (' ' :: (dumps v ++ rest)) = skipWs (dumps v ++ rest) from by
          simp [skipWs, jsonWs]]
        exact skipWs_dumps v _
      simp only [parseMember_quote, parseStringBody_escapeList, hskip1, hskip2,
        rtValue v f rest hwf hflen hrest, string_mk_data]
  termination_by kv _ _ _ _ _ => sizeOf kv

theorem rtObjTail : ∀ (kvs : List (String × Json)) (fuel : Nat) (rest : List Char),
    Json.wfMembers kvs = true → (dumpsMTail kvs).length < fuel →
    parseObjTail fuel (dumpsMTail kvs ++ '\x7d' :: rest) = some (kvs, rest)
  | [], fuel, rest, _, hf => by
    cases fuel with
    | zero => omega
    | succ f => rfl
  | kv :: kvs, fuel, rest, hwf, hf => by
    cases fuel with
    | zero => omega
    | succ f =>
      have hwf1 : Json.wf kv.2 = true ∧ Json.wfMembers kvs = true := by
        rw [show Json.wfMembers (kv :: kvs) = (Json.wf kv.2 && Json.wfMembers kvs)
          from rfl] at hwf
        simpa using hwf
      have hlen : (dumpStr kv.1).length + 2 + (dumps kv.2).length < f ∧
          (dumpsMTail kvs).length < f := by
        rw [show dumpsMTail (kv :: kvs) =
          ',' :: ' ' :: (dumpStr kv.1 ++ ':' :: ' ' :: dumps kv.2 ++ dumpsMTail kvs)
          from rfl] at hf
        simp only [List.length_cons, List.length_append] at hf
        omega
      rw [show dumpsMTail (kv :: kvs) ++ '\x7d' :: rest =
          ',' :: ' ' :: (dumpStr kv.1 ++ (':' :: ' ' ::
            (dumps kv.2 ++ (dumpsMTail kvs ++ '\x7d' :: rest)))) from by
        rw [show dumpsMTail (kv :: kvs) =
          ',' :: ' ' :: (dumpStr kv.1 ++ ':' :: ' ' :: dumps kv.2 ++ dumpsMTail kvs)
          from rfl]
        simp]
      rw [parseObjTail_comma]
      rw [show skipWs (' ' :: (dumpStr kv.1 ++ (':' :: ' ' ::
            (dumps kv.2 ++ (dumpsMTail kvs ++ '\x7d' :: rest))))) =
          dumpStr kv.1 ++ (':' :: ' ' ::
            (dumps kv.2 ++ (dumpsMTail kvs ++ '\x7d' :: rest))) from by
        rw [show dumpStr kv.1 = '"' :: (escapeList kv.1.data ++ ['"']) from rfl]
        simp [skipWs, jsonWs]]
      simp only [rtMember kv f (dumpsMTail kvs ++ '\x7d' :: rest) hwf1.1 hlen.1
        (numEnd_dumpsMTail kvs rest), rtObjTail kvs f rest hwf1.2 hlen.2]

  termination_by kvs _ _ _ _ => sizeOf kvs

end

/-! ## json.loads inverts json.dumps -/

theorem loads_dumps (j : Json) (h : Json.wf j = true) : loads (dumps j) = some j := by
  have hskip : skipWs (dumps j) = dumps j := by simpa using skipWs_dumps j []
  have hrt := rtValue j ((dumps j).length + 1) [] h (by omega) rfl
  rw [List.append_nil] at hrt
  simp only [loads, hskip, hrt]
  rfl

theorem loads_dumps_nl (j : Json) (h : Json.wf j = true) :
    loads (dumps j ++ ['\n']) = some j := by
  have hskip : skipWs (dumps j ++ ['\n']) = dumps j ++ ['\n'] := skipWs_dumps j _
  have hrt := rtValue j ((dumps j ++ ['\n']).length + 1) ['\n'] h
    (by simp only [List.length_append]; omega) (numEnd_nl [])
  simp only [loads, hskip, hrt]
  rfl

/-! ## The full-dataset export parses back to the dataset -/

theorem loadText_go : ∀ ds : List Json, (∀ j ∈ ds, Json.wf j = true) →
    ∀ acc, loadTextLinesFrom acc (fileLines (serializeAll ds)) = some (acc ++ ds)
  | [], _, acc => by simp [serializeAll, fileLines, loadTextLinesFrom]
  | [d], h, acc => by
    rw [show serializeAll [d] = dumps d from rfl,
      fileLines_no_nl (dumps d) (dumps_ne_nil d) (dumps_no_nl d)]
    simp only [loadTextLinesFrom, loadTextLine, pyStrip_dumps,
      if_neg (dumps_ne_nil d), loads_dumps d (h d (by simp))]
  | d :: e :: ds, h, acc => by
    rw [show serializeAll (d :: e :: ds) = dumps d ++ '\n' :: serializeAll (e :: ds)
      from rfl]
    rw [fileLines_append_nl _ _ (dumps_no_nl d)]
    have ih := loadText_go (e :: ds) (fun x hx => h x (List.mem_cons_of_mem d hx))
      (acc ++ [d])
    simp only [loadTextLinesFrom, loadTextLine, pyStrip_dumps_nl,
      if_neg (dumps_ne_nil d), loads_dumps d (h d (by simp)), ih]
    simp

/-- The N-line shape of the export: one loadable line per record. -/
theorem serializeAll_lines : ∀ ds : List Json, (∀ j ∈ ds, Json.wf j = true) →
    (fileLines (serializeAll ds)).length = ds.length ∧
    ∀ l ∈ fileLines (serializeAll ds), ∃ j ∈ ds, loads l = some j
  | [], _ => ⟨rfl, by simp [serializeAll, fileLines]⟩
  | [d], h => by
    rw [show serializeAll [d] = dumps d from rfl,
      fileLines_no_nl (dumps d) (dumps_ne_nil d) (dumps_no_nl d)]
    refine ⟨rfl, ?_⟩
    intro l hl
    simp only [List.mem_singleton] at hl
    subst hl
    exact ⟨d, by simp, loads_dumps d (h d (by simp))⟩
  | d :: e :: ds, h => by
    rw [show serializeAll (d :: e :: ds) = dumps d ++ '\n' :: serializeAll (e :: ds)
      from rfl]
    rw [fileLines_append_nl _ _ (dumps_no_nl d)]
    obtain ⟨ihlen, ihmem⟩ :=
      serializeAll_lines (e :: ds) fun x hx => h x (List.mem_cons_of_mem d hx)
    refine ⟨by simp [ihlen], ?_⟩
    intro l hl
    rcases List.mem_cons.mp hl with rfl | hl
    · exact ⟨d, by simp, loads_dumps_nl d (h d (by simp))⟩
    · obtain ⟨j, hj, hload⟩ := ihmem l hl
      exact ⟨j, List.mem_cons_of_mem d hj, hload⟩

/-! ## The loader's failure and blank-line behaviour -/

/-- A line that fails to decode, or decodes to a nonblank text json
cannot parse, makes its loop iteration fail from any accumulator. -/
theorem loadLine_none (line : List Nat)
    (hbad : utf8Decode line = none ∨
      ∃ s, utf8Decode line = some s ∧ ¬pyStrip s = [] ∧ loads (pyStrip s) = none) :
    ∀ acc, loadLine acc line = none := by
  intro acc
  rcases hbad with hd | ⟨s, hs, hne, hpar⟩
  · simp [loadLine, hd]
  · simp [loadLine, hs, hne, hpar]

/-- The loop fails outright as soon as any of its lines fails. -/
theorem loadLinesFrom_none (lines : List (List Nat)) (line : List Nat)
    (hmem : line ∈ lines) (hfail : ∀ acc, loadLine acc line = none) :
    ∀ acc, loadLinesFrom acc lines = none := by
  induction lines with
  | nil => simp at hmem
  | cons l ls ih =>
    intro acc
    rcases List.mem_cons.mp hmem with rfl | hmem2
    · simp [loadLinesFrom, hfail acc]
    · cases hl : loadLine acc l with
      | none => simp [loadLinesFrom, hl]
      | some acc2 => simpa [loadLinesFrom, hl] using ih hmem2 acc2

/-- A run of lines that all strip to blank contributes nothing and never
fails. -/
theorem loadLinesFrom_blank (lines : List (List Nat))
    (hblank : ∀ l ∈ lines, ∃ s, utf8Decode l = some s ∧ pyStrip s = []) :
    ∀ acc, loadLinesFrom acc lines = some acc := by
  induction lines with
  | nil => intro acc; rfl
  | cons l ls ih =>
    intro acc
    obtain ⟨s, hs, hstrip⟩ := hblank l (by simp)
    have hline : loadLine acc l = some acc := by simp [loadLine, hs, hstrip]
    simpa [loadLinesFrom, hline] using ih (fun x hx => hblank x (by simp [hx])) acc

/-! ## The claims -/

/-- C1: for every valid (complete human/gpt pairs) turn sequence,
rebuilding its QA pairs, merging them back unmodified (new-pair boxes
left empty), and writing the flattened turns into the record reproduces
the original turn values and order, so the record and its serialization
are unchanged. -/
theorem claim_C1 (ts : List Turn) (fields : List (String × Json))
    (news : List (String × String))
    (hvalid : alternatesHG ts = true)
    (hconv : lookupKey fields "conversations" = some (turnsToJson ts))
    (hnews : ∀ p ∈ news, p = ("", "")) :
    mergeEdits (pairsToEdits (reconstructPairs ts)) news = ts ∧
    updAssoc fields "conversations"
      (turnsToJson (mergeEdits (pairsToEdits (reconstructPairs ts)) news)) = fields ∧
    serializeOne (.obj (updAssoc fields "conversations"
      (turnsToJson (mergeEdits (pairsToEdits (reconstructPairs ts)) news)))) =
      serializeOne (.obj fields) := by
  have hm : mergeEdits (pairsToEdits (reconstructPairs ts)) news = ts := by
    rw [mergeEdits_eq_blocks, filter_nonempty_of_all_empty news hnews]
    simpa using blocks_reconstruct ts hvalid
  refine ⟨hm, ?_, ?_⟩
  · rw [hm]
    exact updAssoc_self fields _ _ hconv
  · rw [hm, updAssoc_self fields _ _ hconv]

/-- C1 witness: the round trip on a concrete one-pair record. -/
theorem claim_C1_wit :
    mergeEdits (pairsToEdits (reconstructPairs [⟨"human", "Q1"⟩, ⟨"gpt", "A1"⟩]))
        [("", "")] = [⟨"human", "Q1"⟩, ⟨"gpt", "A1"⟩] :=
  (claim_C1 [⟨"human", "Q1"⟩, ⟨"gpt", "A1"⟩]
    [("id", .num 1), ("conversations", turnsToJson [⟨"human", "Q1"⟩, ⟨"gpt", "A1"⟩])]
    [("", "")] (by decide) rfl (by decide)).1

/-- C2: the source's pairing loop computes exactly the accumulator scan
the specification prescribes, stated as equality with a transcription of
the specified scan (human flushes a pending question then restarts, gpt
with a pending question attaches and flushes, an orphan gpt is dropped, a
trailing pending question is flushed). -/
theorem claim_C2 (ts : List Turn) : reconstructPairs ts = specReconstructPairs ts := by
  have h := specFold_eq_reconstructAux ts [] none
  simpa [specReconstructPairs, stateOfAcc, reconstructPairs] using h.symm

/-- C6: a new pair with both texts empty is dropped by the merge wherever
it sits; a new pair with one side filled still becomes two turns, the
missing side an empty string; and the spec's concrete case - one edited
pair plus one untouched new pair - merges to exactly its two turns. -/
theorem claim_C6 :
    (∀ edited pre post,
      mergeEdits edited (pre ++ ("", "") :: post) = mergeEdits edited (pre ++ post)) ∧
    (∀ edited q, ¬q = "" →
      mergeEdits edited [(q, "")] = mergeEdits edited [] ++ [⟨"human", q⟩, ⟨"gpt", ""⟩]) ∧
    (∀ edited a, ¬a = "" →
      mergeEdits edited [("", a)] = mergeEdits edited [] ++ [⟨"human", ""⟩, ⟨"gpt", a⟩]) ∧
    mergeEdits [("newQ", "newA")] [("", "")] =
      [⟨"human", "newQ"⟩, ⟨"gpt", "newA"⟩] := by
  refine ⟨?_, ?_, ?_, by decide⟩
  · intro edited pre post
    simp [mergeEdits, List.filter_append]
  · intro edited q hq
    simp [mergeEdits, hq]
  · intro edited a ha
    simp [mergeEdits, ha]

/-- C6 witness: the merge behaviours at concrete inputs. -/
theorem claim_C6_wit :
    mergeEdits [("a", "b")] ([("x", "y")] ++ ("", "") :: [("z", "w")]) =
      mergeEdits [("a", "b")] ([("x", "y")] ++ [("z", "w")]) ∧
    mergeEdits [("a", "b")] [("Q1", "")] =
      mergeEdits [("a", "b")] [] ++ [⟨"human", "Q1"⟩, ⟨"gpt", ""⟩] :=
  ⟨claim_C6.1 [("a", "b")] [("x", "y")] [("z", "w")],
   claim_C6.2.1 [("a", "b")] "Q1" (by decide)⟩

/-- C8: every human turn yields exactly one pair (the pair count equals
the human-turn count), and an answered pair's question text occurs as a
human turn strictly before a gpt turn carrying its answer text. -/
theorem claim_C8 (ts : List Turn) :
    (reconstructPairs ts).length = (ts.filter fun t => t.«from» = "human").length ∧
    ∀ p ∈ reconstructPairs ts, ∀ a, p.answer = some a →
      ∃ i j, i < j ∧ ts.get? i = some ⟨"human", p.question⟩ ∧
        ts.get? j = some ⟨"gpt", a⟩ := by
  constructor
  · simpa using reconstructAux_length ts none
  · intro p hp a ha
    obtain ⟨j, hj, hsrc⟩ := reconstructAux_answer_src ts none p hp a ha
    rcases hsrc with ⟨q0, hq0, _⟩ | ⟨i, hij, hi⟩
    · simp at hq0
    · exact ⟨i, j, hij, hi, hj⟩

/-- C8 witness: the source positions of the one answered pair of a
two-turn conversation. -/
theorem claim_C8_wit :
    ∃ i j, i < j ∧
      ([⟨"human", "Q"⟩, ⟨"gpt", "A"⟩] : List Turn).get? i = some ⟨"human", "Q"⟩ ∧
      ([⟨"human", "Q"⟩, ⟨"gpt", "A"⟩] : List Turn).get? j = some ⟨"gpt", "A"⟩ :=
  (claim_C8 [⟨"human", "Q"⟩, ⟨"gpt", "A"⟩]).2 ⟨"Q", some "A"⟩ (by decide) "A" rfl

/-- C9: whatever the input turns and the reviewer's edits, the merged
turn list has even length and strictly alternates human then gpt. -/
theorem claim_C9 (edited news : List (String × String)) :
    (mergeEdits edited news).length % 2 = 0 ∧
      ∀ i, ∀ hi : i < (mergeEdits edited news).length,
        ((mergeEdits edited news).get ⟨i, hi⟩).«from» =
          if i % 2 = 0 then "human" else "gpt" := by
  apply alternatesHG_spec
  rw [mergeEdits_eq_blocks]
  exact pairBlocks_alternates _

/-- C9 witness: the alternation at a concrete merge. -/
theorem claim_C9_wit :
    ((mergeEdits [("q", "a")] [("x", "")]).get ⟨3, by decide⟩).«from» = "gpt" := by
  have h := (claim_C9 [("q", "a")] [("x", "")]).2 3 (by decide)
  simpa using h

/-- C5: if any line of the uploaded bytes fails UTF-8 decoding, or strips
to a nonblank text json parsing rejects, the whole load yields none (the
caught exception path): no dataset at all is handed back, in particular
none holding the records parsed before the failing line. -/
theorem claim_C5 (input : List Nat) (line : List Nat)
    (hmem : line ∈ fileLinesBytes input)
    (hbad : utf8Decode line = none ∨
      ∃ s, utf8Decode line = some s ∧ ¬pyStrip s = [] ∧ loads (pyStrip s) = none) :
    load_jsonl_data input = none ∧ ∀ ds, ¬load_jsonl_data input = some ds := by
  have h := loadLinesFrom_none (fileLinesBytes input) line hmem (loadLine_none line hbad) []
  exact ⟨h, fun ds hds => by rw [load_jsonl_data] at hds; rw [h] at hds; cases hds⟩

/-- C5 witness: a good first line followed by an undecodable byte. -/
theorem claim_C5_wit : load_jsonl_data [49, 10, 255] = none :=
  (claim_C5 [49, 10, 255] [255] (by decide) (Or.inl rfl)).1

/-- C10: an upload whose lines all strip to blank loads successfully as
the empty dataset, and the falsiness guard after loading then stops the
app exactly as it does on a failed load. -/
theorem claim_C10 (input : List Nat)
    (hblank : ∀ l ∈ fileLinesBytes input, ∃ s, utf8Decode l = some s ∧ pyStrip s = []) :
    load_jsonl_data input = some [] ∧
    continuesReview (load_jsonl_data input) = false ∧
    continuesReview (load_jsonl_data input) = continuesReview none := by
  have h : load_jsonl_data input = some [] :=
    loadLinesFrom_blank (fileLinesBytes input) hblank []
  exact ⟨h, by rw [h]; rfl, by rw [h]; rfl⟩

/-- C3: serializing a dataset and re-parsing the result reconstructs the
dataset itself - same record count, same field values, same order.  The
hypothesis states what Python dicts guarantee structurally: no object in
the dataset lists a key twice. -/
theorem claim_C3 (ds : List Json) (h : ∀ j ∈ ds, Json.wf j = true) :
    loadJsonlText (serializeAll ds) = some ds := by
  have hgo := loadText_go ds h []
  simpa [loadJsonlText] using hgo

/-- C3 witness: a concrete two-record dataset round-trips exactly. -/
theorem claim_C3_wit :
    loadJsonlText (serializeAll
      [.obj [("image", .str "a.png"),
             ("conversations", .arr [.obj [("from", .str "human"), ("value", .str "héllo")]])],
       .obj [("id", .num 7), ("caption", .str "x")]]) =
    some
      [.obj [("image", .str "a.png"),
             ("conversations", .arr [.obj [("from", .str "human"), ("value", .str "héllo")]])],
       .obj [("id", .num 7), ("caption", .str "x")]] :=
  claim_C3
    [.obj [("image", .str "a.png"),
           ("conversations", .arr [.obj [("from", .str "human"), ("value", .str "héllo")]])],
     .obj [("id", .num 7), ("caption", .str "x")]] (by decide)

/-- C4: serializing the dataset obtained by parsing the serialized text
is byte-identical to the first serialization. -/
theorem claim_C4 (ds ds' : List Json) (h : ∀ j ∈ ds, Json.wf j = true)
    (hparse : loadJsonlText (serializeAll ds) = some ds') :
    serializeAll ds' = serializeAll ds := by
  have h3 : loadJsonlText (serializeAll ds) = some ds := by
    have hgo := loadText_go ds h []
    simpa [loadJsonlText] using hgo
  rw [h3] at hparse
  injection hparse with h4
  rw [h4]

/-- C4 witness: idempotence at a concrete dataset. -/
theorem claim_C4_wit :
    serializeAll [.obj [("id", .num 3), ("caption", .str "c")], .null] =
      serializeAll [.obj [("id", .num 3), ("caption", .str "c")], .null] :=
  claim_C4 [.obj [("id", .num 3), ("caption", .str "c")], .null]
    [.obj [("id", .num 3), ("caption", .str "c")], .null] (by decide) rfl

/-- C7: the full-dataset export of N records is exactly N lines, each of
which parses on its own as the corresponding record, and the escaper
leaves every character from space upward - all non-ASCII included -
untouched, so non-ASCII text is preserved verbatim. -/
theorem claim_C7 (ds : List Json) (h : ∀ j ∈ ds, Json.wf j = true) :
    (fileLines (serializeAll ds)).length = ds.length ∧
    (∀ l ∈ fileLines (serializeAll ds), ∃ j ∈ ds, loads l = some j) ∧
    (∀ c : Char, 32 ≤ c.toNat → ¬c = '"' → ¬c = '\\' → escapeChar c = [c]) := by
  obtain ⟨h1, h2⟩ := serializeAll_lines ds h
  refine ⟨h1, h2, ?_⟩
  intro c hge hq hb
  rw [escapeChar, if_neg hq, if_neg hb, if_neg (by omega)]

/-- C7 witness: the two-record export has exactly two lines. -/
theorem claim_C7_wit :
    (fileLines (serializeAll [.obj [("id", .num 1)], .obj [("id", .num 2)]])).length = 2 :=
  (claim_C7 [.obj [("id", .num 1)], .obj [("id", .num 2)]] (by decide)).1

/-- C10 witness: a file of one space line, one tab line and one empty
line loads as the empty dataset and stops the app. -/
theorem claim_C10_wit :
    load_jsonl_data [32, 10, 9, 10, 10] = some [] ∧
    continuesReview (load_jsonl_data [32, 10, 9, 10, 10]) = false ∧
    continuesReview (load_jsonl_data [32, 10, 9, 10, 10]) = continuesReview none :=
  claim_C10 [32, 10, 9, 10, 10] (by
    intro l hl
    have he : fileLinesBytes [32, 10, 9, 10, 10] = [[32, 10], [9, 10], [10]] := rfl
    rw [he] at hl
    simp only [List.mem_cons, List.not_mem_nil, or_false] at hl
    rcases hl with rfl | rfl | rfl
    · exact ⟨_, rfl, rfl⟩
    · exact ⟨_, rfl, rfl⟩
    · exact ⟨_, rfl, rfl⟩)

end DocVQA
